import Mathlib

/-!
Verification of the boolean-retrieval core of this repository against its
design document.

The development shallowly embeds the two core Python modules:

* `build_inverted_index.py` — `build_inverted_index` aggregates
  lemma → set-of-doc-ids over the per-document lemma files and persists the
  index as sorted text lines;
* `boolean_search.py` — `load_inverted_index` parses the persisted index
  back, `tokenize_query` lexes a query, and `QueryParser` is a fused
  recursive-descent parser/evaluator over the loaded index.

Modelling conventions:

* Python `set[int]` becomes `Finset ℤ`; a Python dict from strings to sets
  becomes a `Dict` record with an explicit key set and a total value
  function that is `∅` off the keys (the only observations the code makes
  of its dicts are key membership, lookup, assignment and sorted key
  iteration, all of which this record supports).
* machine text is `String`/`List Char`.  `Char.toLower`, `Char.isWhitespace`
  and the word-character test below are ASCII-exact models of the Python
  operations; outside ASCII, Python lowercases letters and counts them as
  word characters, which the model approximates by leaving code points
  ≥ 128 unchanged and counting them as word characters (the repository's
  data is lower-case Russian lemmas, for which the two agree).
* Python `int(s)` on a whitespace-free field becomes `pyParseInt`
  (optional sign followed by ASCII digits; Python's underscore grouping
  and non-ASCII digits are not modelled).  Failure is the exception value
  `PyErr.valueError s`, whose rendered message is the literal CPython
  message text.
* The stateful `QueryParser` object becomes explicit state passing over
  `QPState`; `self.pos += 1` is the only field assignment in the source,
  and the embedding returns the whole final state so that absence of
  other state changes is a provable statement rather than a convention.
-/

/-! ### Python string primitives -/

/-- Python `str.split()` field predicate: a character that can be part of a
whitespace-separated field. -/
def isFieldChar (c : Char) : Bool := !c.isWhitespace

/-- Python `str.lower()`.  Exact on ASCII; non-ASCII letters are left
unchanged (real `str.lower()` also lowers those), so claim theorems that
speak about the lower-cased *value* of an input quantify only over ASCII
strings.  Properties insensitive to which idempotent lowering is used
(the build/load round trip, which lower-cases identically on both sides)
are unaffected. -/
def strLower (s : String) : String := String.mk (s.data.map Char.toLower)

/-- Python `str.strip()` on a character list. -/
def pyStripList (cs : List Char) : List Char :=
  ((cs.dropWhile Char.isWhitespace).reverse.dropWhile Char.isWhitespace).reverse

/-- Python `str.strip()`. -/
def pyStrip (s : String) : String := String.mk (pyStripList s.data)

/-- Scanner for Python `str.split()`: `acc` is the (reversed) current
field. -/
def pySplitAux (acc : List Char) : List Char → List (List Char)
  | [] => if acc = [] then [] else [acc.reverse]
  | c :: cs =>
    if c.isWhitespace then
      if acc = [] then pySplitAux [] cs else acc.reverse :: pySplitAux [] cs
    else pySplitAux (c :: acc) cs

/-- Python `str.split()` (no separator argument): maximal runs of
non-whitespace characters, no empty fields. -/
def pySplitList (cs : List Char) : List (List Char) := pySplitAux [] cs

/-- Python `str.split()` on strings. -/
def pySplit (s : String) : List String := (pySplitList s.data).map String.mk

/-! ### Decimal integers: `str(i)` and `int(s)` -/

/-- Fuel-driven decimal digit writer (digit accumulator holds the least
significant digits already produced). -/
def natDigitsAux : Nat → Nat → List Char → List Char
  | 0, _, acc => acc
  | fuel + 1, n, acc =>
    if n < 10 then Char.ofNat (48 + n) :: acc
    else natDigitsAux fuel (n / 10) (Char.ofNat (48 + n % 10) :: acc)

/-- Decimal digits of a natural number, most significant first
(the digits of Python `str(n)`). -/
def natDigits (n : Nat) : List Char := natDigitsAux (n + 1) n []

/-- Python `str(i)` for an integer. -/
def intStr (i : Int) : String :=
  match i with
  | .ofNat n => String.mk (natDigits n)
  | .negSucc n => String.mk ('-' :: natDigits (n + 1))

/-- Value of a list of ASCII digit characters (`none` if empty or a
non-digit appears), most significant first. -/
def digitsVal (cs : List Char) : Option Nat :=
  if cs = [] then none
  else if cs.all Char.isDigit then
    some (cs.foldl (fun a c => a * 10 + (c.toNat - 48)) 0)
  else none

/-- Python `int(s)` on a whitespace-free field: optional sign then ASCII
digits.  Python additionally accepts surrounding whitespace, underscore
digit grouping and non-ASCII digits; the fields this model parses never
contain whitespace, and the two extensions are not modelled — so this
function *rejects more* than `int()`.  The loader-error claim therefore
predicates its hypothesis on `hardBadChar` fields (an ASCII character no
`int()` grammar production can consume), where rejection by this model
implies rejection by `int()`. -/
def pyParseInt (s : String) : Option Int :=
  match s.data with
  | [] => none
  | c :: cs =>
    if c = '-' then (digitsVal cs).map fun v => -(v : Int)
    else if c = '+' then (digitsVal cs).map fun v => (v : Int)
    else (digitsVal (c :: cs)).map fun v => (v : Int)

/-! ### Dicts

A Python `dict[str, set[int]]` is observed by the two modules only through
key membership, item lookup, item assignment and (sorted) key iteration.
`Dict` supports exactly these observations. -/

structure Dict where
  keys : Finset String
  val : String → Finset Int

/-- The empty dict `{}`. -/
def Dict.empty : Dict := ⟨∅, fun _ => ∅⟩

/-- `d[k] = v` (assignment, overwriting any previous binding). -/
def Dict.set (d : Dict) (k : String) (v : Finset Int) : Dict :=
  ⟨insert k d.keys, fun k' => if k' = k then v else d.val k'⟩

/-- `d.get(k, set())`: lookup with empty-set default. -/
def Dict.getD (d : Dict) (k : String) : Finset Int :=
  if k ∈ d.keys then d.val k else ∅

/-- `index[lemma].add(doc_id)` preceded by `if lemma not in index:
index[lemma] = set()` — the per-pair update step of the index builder. -/
def Dict.add (d : Dict) (k : String) (i : Int) : Dict :=
  ⟨insert k d.keys, fun k' => if k' = k then insert i (d.val k') else d.val k'⟩

theorem Dict.getD_set (d : Dict) (k : String) (v : Finset Int) :
    (d.set k v).getD k = v := by
  simp [Dict.set, Dict.getD]

/-! ### IndexBuilder: `build_inverted_index.py`

A lemma source is modelled as it is read: a list of documents, each a
`DocId` paired with the raw lines of its `lemmas.txt` file.  The builder
takes the first whitespace-separated field of every non-blank line,
lower-cases it and records the document id under it. -/

/-- The per-line step of the builder's reading loop: skip blank lines,
take the first field, lower-case it, add the doc id to its posting set. -/
def addLemmaLine (docId : Int) (d : Dict) (line : String) : Dict :=
  let stripped := pyStrip line
  if stripped = "" then d
  else
    match pySplit stripped with
    | [] => d
    | lem :: _ => d.add (strLower lem) docId

/-- Processing one document's `lemmas.txt`. -/
def addDoc (d : Dict) (doc : Int × List String) : Dict :=
  doc.2.foldl (addLemmaLine doc.1) d

/-- The in-memory index accumulated by `build_inverted_index`. -/
def buildDict (docs : List (Int × List String)) : Dict :=
  docs.foldl addDoc Dict.empty

/-- Python `" ".join(parts)`. -/
def joinSp : List String → String
  | [] => ""
  | [x] => x
  | x :: y :: t => x ++ " " ++ joinSp (y :: t)

/-- One persisted line:
`term + " " + " ".join(str(d) for d in sorted(doc_ids))`. -/
def renderLine (t : String) (ids : Finset Int) : String :=
  t ++ " " ++ joinSp ((ids.sort (· ≤ ·)).map intStr)

/-- `build_inverted_index`: the lines written to `inverted_index.txt`,
terms in ascending (code-point lexicographic) order, posting ids in
ascending numeric order. -/
def build_inverted_index (docs : List (Int × List String)) : List String :=
  let d := buildDict docs
  ((d.keys.sort (· ≤ ·)).map fun t => renderLine t (d.val t))

/-- The doc-ids of the documents of `docs` that contain lemma `l`
(first field of some non-blank line, lower-cased).  This is the
specification-side description of a posting set. -/
def docHasLemma (lines : List String) (l : String) : Bool :=
  lines.any fun line =>
    match pySplit (pyStrip line) with
    | [] => false
    | t :: _ => strLower t == l

/-- The set of DocIds whose document in `docs` contains lemma `l`. -/
def postingsOf (docs : List (Int × List String)) (l : String) : Finset Int :=
  docs.foldl (fun acc doc => if docHasLemma doc.2 l then insert doc.1 acc else acc) ∅

/-! ### IndexLoader: `load_inverted_index` in `boolean_search.py` -/

/-- The exception a failing `int(x)` raises.  A Python `ValueError` from
`int` carries only the offending literal; in particular neither the name
of the file being read nor the number of the line being parsed is part of
the exception. -/
inductive PyErr where
  | valueError (literal : String)
deriving DecidableEq

/-- The message CPython attaches to the `ValueError` (the literal is
quoted in the real message; the quotes are dropped here). -/
def PyErr.message : PyErr → String
  | .valueError lit => "invalid literal for int() with base 10: " ++ lit

/-- `set(int(x) for x in parts[1:])`: parse the posting fields left to
right, raising on the first field that is not an integer. -/
def parseFields : List String → Except PyErr (Finset Int)
  | [] => .ok ∅
  | f :: fs =>
    match pyParseInt f with
    | none => .error (.valueError f)
    | some i =>
      match parseFields fs with
      | .error e => .error e
      | .ok s => .ok (insert i s)

/-- The line loop of `load_inverted_index`, starting from index `d`:
skip blank lines, split, lower-case the term, parse the remaining fields
as the posting set, assign. -/
def load_inverted_index (d : Dict) : List String → Except PyErr Dict
  | [] => .ok d
  | line :: rest =>
    let stripped := pyStrip line
    if stripped = "" then load_inverted_index d rest
    else
      match pySplit stripped with
      | [] => load_inverted_index d rest
      | t :: fields =>
        match parseFields fields with
        | .error e => .error e
        | .ok ids => load_inverted_index (d.set (strLower t) ids) rest

/-- `load_inverted_index` on the whole file. -/
def loadIndex (lines : List String) : Except PyErr Dict :=
  load_inverted_index Dict.empty lines

/-! ### QueryTokenizer: `tokenize_query` in `boolean_search.py`

The source tokenizer is
`re.findall(r'[()]|\bAND\b|\bOR\b|\bNOT\b|[^\s()]+', s, re.IGNORECASE)`
followed by a normalization loop.  Because the operator constants
`AND_OP/OR_OP/NOT_OP` are the plain strings `"and"/"or"/"not"`, the
normalization loop is extensionally `str.lower` on every matched text
(a matched keyword's lower-casing *is* the operator constant, and
`"("`/`")"` are fixed by lower-casing), so it is fused into the scan.

`re.findall` semantics modelled: scan left to right; whitespace never
starts a match; a parenthesis is always its own token; at a fresh token
start, a keyword matches case-insensitively when the position follows a
non-word character (or the start) and is followed by a non-word character
(or the end) — the `\b` word boundaries; otherwise the maximal run of
non-whitespace non-parenthesis characters is one Term.  The keyword
alternatives start with distinct letters, so their order is immaterial. -/

/-- Python regex `\w`.  Exact on ASCII (`[a-zA-Z0-9_]`); code points
≥ 128 are approximated as word characters — correct for the letters the
repository's Russian data contains, wrong for non-ASCII punctuation and
whitespace (Python `\w` excludes those).  Every claim theorem that
depends on the word class therefore quantifies only over ASCII words
(`IsAsciiWord` below), where this definition agrees with `re` exactly. -/
def isWordChar (c : Char) : Bool := c.isAlphanum || c == '_' || decide (128 ≤ c.toNat)

/-- `\b` holds before a keyword: previous character absent or non-word. -/
def startOk : Option Char → Bool
  | none => true
  | some c => !isWordChar c

/-- `\b` holds after a keyword: next character absent or non-word. -/
def boundaryOk : List Char → Bool
  | [] => true
  | c :: _ => !isWordChar c

/-- A character that continues a Term run: `[^\s()]`. -/
def isTermChar (c : Char) : Bool := !c.isWhitespace && c != '(' && c != ')'

/-- Case-insensitive match of one character against a lower-case letter. -/
def chEq (c : Char) (d : Char) : Bool := c.toLower == d

/-- Emit the pending (reversed) Term run, lower-cased, if any. -/
def flushRun (run : List Char) : List String :=
  if run = [] then [] else [strLower (String.mk run.reverse)]

/-- Keyword attempt at a fresh token start: does the input begin with a
case-insensitive `or`/`and`/`not` whose trailing `\b` holds?  Returns the
operator token, the last matched character and the remaining input. -/
def kwTry : List Char → Option (String × Char × List Char)
  | c :: n :: rest1 =>
    if chEq c 'o' && chEq n 'r' && boundaryOk rest1 then some ("or", n, rest1)
    else
      match rest1 with
      | d :: rest2 =>
        if chEq c 'a' && chEq n 'n' && chEq d 'd' && boundaryOk rest2 then
          some ("and", d, rest2)
        else if chEq c 'n' && chEq n 'o' && chEq d 't' && boundaryOk rest2 then
          some ("not", d, rest2)
        else none
      | [] => none
  | _ => none

/-- The scanner.  `run` is the pending (reversed) Term run; `prev` the
previously consumed character.  The `fuel` argument only keeps the
recursion structural (so that the kernel can evaluate the scanner); every
step consumes at least one input character, so any `fuel ≥ cs.length`
computes the scan to completion (`tokenizeAux_fuel`). -/
def tokenizeAux : Nat → List Char → Option Char → List Char → List String
  | 0, run, _, _ => flushRun run
  | _ + 1, run, _, [] => flushRun run
  | fuel + 1, run, prev, c :: cs =>
    if c.isWhitespace then flushRun run ++ tokenizeAux fuel [] (some c) cs
    else if c = '(' then flushRun run ++ "(" :: tokenizeAux fuel [] (some c) cs
    else if c = ')' then flushRun run ++ ")" :: tokenizeAux fuel [] (some c) cs
    else if run.isEmpty && startOk prev then
      match kwTry (c :: cs) with
      | some (tok, last, rest) => tok :: tokenizeAux fuel [] (some last) rest
      | none => tokenizeAux fuel [c] (some c) cs
    else tokenizeAux fuel (c :: run) (some c) cs

/-- `tokenize_query`. -/
def tokenize_query (s : String) : List String :=
  let t := pyStrip s
  if t = "" then [] else tokenizeAux t.data.length [] none t.data

theorem kwTry_length {l : List Char} {tok : String} {last : Char}
    {rest : List Char} (h : kwTry l = some (tok, last, rest)) :
    rest.length + 2 ≤ l.length := by
  unfold kwTry at h
  split at h
  · rename_i c n rest1
    split at h
    · injection h with h'
      injection h' with h1 h2
      injection h2 with h2 h3
      subst h3
      simp
    · split at h
      · rename_i d rest2
        split at h
        · injection h with h'
          injection h' with h1 h2
          injection h2 with h2 h3
          subst h3
          simp
        · split at h
          · injection h with h'
            injection h' with h1 h2
            injection h2 with h2 h3
            subst h3
            simp
          · cases h
      · cases h
  · cases h

/-- The scan is independent of the fuel once the fuel covers the input
length: the scanner consumes at least one character per step. -/
theorem tokenizeAux_fuel :
    ∀ (n : Nat) (cs : List Char) (run : List Char) (prev : Option Char) (m : Nat),
      cs.length ≤ n → cs.length ≤ m →
      tokenizeAux n run prev cs = tokenizeAux m run prev cs := by
  intro n
  induction n with
  | zero =>
    intro cs run prev m hn _
    have : cs = [] := List.eq_nil_of_length_eq_zero (Nat.le_zero.mp hn)
    subst this
    cases m <;> rfl
  | succ n ih =>
    intro cs run prev m hn hm
    match cs, m with
    | [], 0 => rfl
    | [], m + 1 => rfl
    | c :: cs', 0 => simp at hm
    | c :: cs', m + 1 =>
      have hn' : cs'.length ≤ n := by simp at hn; omega
      have hm' : cs'.length ≤ m := by simp at hm; omega
      show tokenizeAux (n + 1) run prev (c :: cs') = tokenizeAux (m + 1) run prev (c :: cs')
      unfold tokenizeAux
      rcases hws : c.isWhitespace with _ | _
      · simp only [hws, Bool.false_eq_true, if_false]
        by_cases hlp : c = '('
        · simp only [hlp, if_true]
          rw [ih cs' [] (some '(') m hn' hm']
        · simp only [hlp, if_false]
          by_cases hrp : c = ')'
          · simp only [hrp, if_true]
            rw [ih cs' [] (some ')') m hn' hm']
          · simp only [hrp, if_false]
            rcases hfresh : run.isEmpty && startOk prev with _ | _
            · simp only [hfresh, Bool.false_eq_true, if_false]
              rw [ih cs' (c :: run) (some c) m hn' hm']
            · simp only [hfresh, if_true]
              rcases hk : kwTry (c :: cs') with _ | ⟨tok, last, rest⟩
              · dsimp only
                rw [ih cs' [c] (some c) m hn' hm']
              · have hr := kwTry_length hk
                simp only [List.length_cons] at hr
                dsimp only
                rw [ih rest [] (some last) m (by omega) (by omega)]
      · simp only [hws, if_true]
        rw [ih cs' [] (some c) m hn' hm']

/-! ### Character-class facts used by the tokenizer lemmas -/

theorem charOfNatVal {n : Nat} (hv : n.isValidChar) : (Char.ofNat n).toNat = n := by
  simp only [Char.ofNat, dif_pos hv, Char.ofNatAux, Char.toNat]
  rfl

/-- `str.lower()` only moves code points into the ASCII lower-case letter
range; a character whose code point is not an ASCII lower-case letter can
only be the lower-casing of itself. -/
theorem toLower_eq_of_nonletter {c d : Char} (h : c.toLower = d)
    (hd : d.toNat < 97 ∨ 122 < d.toNat) : c = d := by
  unfold Char.toLower at h
  simp only [] at h
  split at h
  · rename_i hr
    exfalso
    have hv : (c.toNat + 32).isValidChar := by left; omega
    have hn := charOfNatVal hv
    rw [h] at hn
    omega
  · exact h

theorem wordChar_not_ws {c : Char} (h : isWordChar c = true) :
    c.isWhitespace = false := by
  cases hws : c.isWhitespace
  · rfl
  · exfalso
    have hc : ((c = ' ' ∨ c = '\t') ∨ c = '\x0d') ∨ c = '\n' := by
      simpa [Char.isWhitespace, decide_eq_true_eq] using hws
    rcases hc with ((hc | hc) | hc) | hc <;> subst hc <;> exact absurd h (by decide)

theorem wordChar_term {c : Char} (h : isWordChar c = true) :
    isTermChar c = true := by
  have h1 : c ≠ '(' := by
    intro he
    subst he
    exact absurd h (by decide)
  have h2 : c ≠ ')' := by
    intro he
    subst he
    exact absurd h (by decide)
  simp [isTermChar, wordChar_not_ws h, h1, h2]

/-- The characters the loader and builder treat as fields have no
whitespace, so `str.strip()` leaves them unchanged; more generally,
`strip` is the identity on a string whose first and last characters are
not whitespace. -/
theorem pyStripList_eq_self {cs : List Char}
    (hh : ∀ c, cs.head? = some c → c.isWhitespace = false)
    (hl : ∀ c, cs.getLast? = some c → c.isWhitespace = false) :
    pyStripList cs = cs := by
  unfold pyStripList
  have h1 : cs.dropWhile Char.isWhitespace = cs := by
    cases cs with
    | nil => rfl
    | cons c t =>
      rw [List.dropWhile_cons_of_neg]
      simp [hh c rfl]
  rw [h1]
  have h2 : cs.reverse.dropWhile Char.isWhitespace = cs.reverse := by
    cases hrev : cs.reverse with
    | nil => rfl
    | cons c t =>
      rw [List.dropWhile_cons_of_neg]
      have : cs.getLast? = some c := by
        rw [← List.head?_reverse, hrev]
        rfl
      simp [hl c this]
  rw [h2, List.reverse_reverse]

theorem char_eq_of_toNat {a b : Char} (h : a.toNat = b.toNat) : a = b := by
  have ha : Char.ofNat a.toNat = a := Char.ofNat_toNat a
  have hb : Char.ofNat b.toNat = b := Char.ofNat_toNat b
  rw [← ha, ← hb, h]

theorem termChar_parts {c : Char} (h : isTermChar c = true) :
    c.isWhitespace = false ∧ c ≠ '(' ∧ c ≠ ')' := by
  simp only [isTermChar, Bool.and_eq_true, Bool.not_eq_true', bne_iff_ne, ne_eq] at h
  exact ⟨h.1.1, h.1.2, h.2⟩

theorem isTermChar_of_range {c : Char} (h1 : 65 ≤ c.toNat) (h2 : c.toNat ≤ 122) :
    isTermChar c = true := by
  have hws : c.isWhitespace = false := by
    cases hw : c.isWhitespace
    · rfl
    · exfalso
      have hc : ((c = ' ' ∨ c = '\t') ∨ c = '\x0d') ∨ c = '\n' := by
        simpa [Char.isWhitespace, decide_eq_true_eq] using hw
      rcases hc with ((hc | hc) | hc) | hc <;> subst hc <;> exact absurd h1 (by decide)
  have hp1 : c ≠ '(' := by
    intro he
    subst he
    exact absurd h1 (by decide)
  have hp2 : c ≠ ')' := by
    intro he
    subst he
    exact absurd h1 (by decide)
  simp [isTermChar, hws, hp1, hp2]

/-- A character that case-insensitively matches an ASCII lower-case
letter is itself an ASCII letter, hence a Term character. -/
theorem chEq_term {y l : Char} (hl1 : 97 ≤ l.toNat) (hl2 : l.toNat ≤ 122)
    (h : chEq y l = true) : isTermChar y = true := by
  have hly : y.toLower = l := by simpa [chEq] using h
  unfold Char.toLower at hly
  simp only [] at hly
  split at hly
  · rename_i hr
    exact isTermChar_of_range (by omega) (by omega)
  · subst hly
    exact isTermChar_of_range (by omega) hl2

/-- While a Term run is open the scanner only moves term characters into
the run; the run and the last-consumed character at the end of the word
are as computed. -/
theorem tok_run_accum :
    ∀ (w : List Char) (fuel : Nat) (r : Char) (run' ys : List Char),
      (∀ c ∈ w, isTermChar c = true) → (w ++ ys).length ≤ fuel →
      tokenizeAux fuel (r :: run') (some r) (w ++ ys) =
        tokenizeAux ys.length (w.reverse ++ r :: run') (some (w.getLastD r)) ys := by
  intro w
  induction w with
  | nil =>
    intro fuel r run' ys hall hf
    simp only [List.nil_append, List.reverse_nil, List.getLastD_nil]
    exact tokenizeAux_fuel fuel ys (r :: run') (some r) ys.length (by simpa using hf) (Nat.le_refl _)
  | cons c w' ih =>
    intro fuel r run' ys hall hf
    have hc := termChar_parts (hall c (by simp))
    match fuel with
    | 0 => simp at hf
    | f + 1 =>
      show tokenizeAux (f + 1) (r :: run') (some r) (c :: (w' ++ ys)) = _
      conv_lhs => unfold tokenizeAux
      rw [hc.1]
      simp only [Bool.false_eq_true, if_false, if_neg hc.2.1, if_neg hc.2.2]
      rw [if_neg (by simp)]
      rw [ih f c (r :: run') ys (fun x hx => hall x (by simp [hx]))
        (by simp only [List.length_cons, List.length_append] at hf ⊢; omega)]
      simp only [List.reverse_cons, List.append_assoc, List.singleton_append,
        List.getLastD_cons]

/-- At a fresh token start, no keyword fires on a word that is not
itself (case-insensitively) `and`, `or` or `not`, followed by a
non-term-character boundary. -/
theorem kwTry_none_word {w ys : List Char} (hw : w ≠ [])
    (hall : ∀ c ∈ w, isWordChar c = true)
    (h1 : w.map Char.toLower ≠ ['a', 'n', 'd'])
    (h2 : w.map Char.toLower ≠ ['o', 'r'])
    (h3 : w.map Char.toLower ≠ ['n', 'o', 't'])
    (hys : ∀ c, ys.head? = some c → isTermChar c = false) :
    kwTry (w ++ ys) = none := by
  have hbound : boundaryOk ys = true := by
    cases hy : ys with
    | nil => rfl
    | cons y ys' =>
      show (!isWordChar y) = true
      cases hwy : isWordChar y
      · rfl
      · exfalso
        have := hys y (by rw [hy]; rfl)
        rw [wordChar_term hwy] at this
        cases this
  have hysne : ∀ y l, ys.head? = some y → 97 ≤ l.toNat → l.toNat ≤ 122 →
      chEq y l = false := by
    intro y l hy hl1 hl2
    cases hc : chEq y l
    · rfl
    · exfalso
      have := hys y hy
      rw [chEq_term hl1 hl2 hc] at this
      cases this
  match w with
  | [c1] =>
    cases hy : ys with
    | nil => rfl
    | cons y ys' =>
      show kwTry (c1 :: y :: ys') = none
      unfold kwTry
      dsimp only
      have hyr := hysne y 'r' (by rw [hy]; rfl) (by decide) (by decide)
      rw [hyr]
      simp only [Bool.and_false, Bool.false_and, Bool.false_eq_true, if_false]
      cases ys' with
      | nil => rfl
      | cons d rest2 =>
        dsimp only
        have hyn := hysne y 'n' (by rw [hy]; rfl) (by decide) (by decide)
        have hyo := hysne y 'o' (by rw [hy]; rfl) (by decide) (by decide)
        rw [hyn, hyo]
        simp
  | [c1, c2] =>
    show kwTry (c1 :: c2 :: ys) = none
    unfold kwTry
    dsimp only
    have hor : (chEq c1 'o' && chEq c2 'r' && boundaryOk ys) = false := by
      cases ho1 : chEq c1 'o' <;> cases ho2 : chEq c2 'r' <;> simp_all [chEq]
    rw [hor]
    simp only [Bool.false_eq_true, if_false]
    cases hy : ys with
    | nil => rfl
    | cons y ys' =>
      dsimp only
      have hyd := hysne y 'd' (by rw [hy]; rfl) (by decide) (by decide)
      have hyt := hysne y 't' (by rw [hy]; rfl) (by decide) (by decide)
      rw [hyd, hyt]
      simp
  | [c1, c2, c3] =>
    show kwTry (c1 :: c2 :: c3 :: ys) = none
    unfold kwTry
    dsimp only
    have hw3 : isWordChar c3 = true := hall c3 (by simp)
    have hb3 : boundaryOk (c3 :: ys) = false := by
      show (!isWordChar c3) = false
      rw [hw3]
      rfl
    rw [hb3]
    simp only [Bool.and_false, Bool.false_eq_true, if_false]
    have hand : (chEq c1 'a' && chEq c2 'n' && chEq c3 'd' && boundaryOk ys) = false := by
      cases ha1 : chEq c1 'a' <;> cases ha2 : chEq c2 'n' <;> cases ha3 : chEq c3 'd' <;>
        simp_all [chEq]
    have hnot : (chEq c1 'n' && chEq c2 'o' && chEq c3 't' && boundaryOk ys) = false := by
      cases hn1 : chEq c1 'n' <;> cases hn2 : chEq c2 'o' <;> cases hn3 : chEq c3 't' <;>
        simp_all [chEq]
    rw [hand, hnot]
    simp
  | c1 :: c2 :: c3 :: c4 :: w' =>
    show kwTry (c1 :: c2 :: c3 :: (c4 :: w' ++ ys)) = none
    unfold kwTry
    dsimp only
    have hb3 : boundaryOk (c3 :: (c4 :: w' ++ ys)) = false := by
      show (!isWordChar c3) = false
      rw [hall c3 (by simp)]
      rfl
    have hb4 : boundaryOk (c4 :: w' ++ ys) = false := by
      show (!isWordChar c4) = false
      rw [hall c4 (by simp)]
      rfl
    rw [hb3, hb4]
    simp

/-- Scanning a word at a fresh token start when no keyword fires: the
whole word goes into one run. -/
theorem tok_word (w ys : List Char) (fuel : Nat) (prev : Option Char)
    (hw : w ≠ []) (hall : ∀ c ∈ w, isWordChar c = true)
    (hkw : kwTry (w ++ ys) = none)
    (hf : (w ++ ys).length ≤ fuel) :
    tokenizeAux fuel [] prev (w ++ ys) =
      tokenizeAux ys.length w.reverse (some (w.getLastD ' ')) ys := by
  match w, fuel with
  | c :: w', 0 => simp at hf
  | c :: w', f + 1 =>
    have hc : isTermChar c = true := wordChar_term (hall c (by simp))
    have hcp := termChar_parts hc
    show tokenizeAux (f + 1) [] prev (c :: (w' ++ ys)) = _
    conv_lhs => unfold tokenizeAux
    rw [hcp.1]
    simp only [Bool.false_eq_true, if_false, if_neg hcp.2.1, if_neg hcp.2.2]
    have hstep : tokenizeAux (f + 1) [] prev (c :: (w' ++ ys)) =
        tokenizeAux f [c] (some c) (w' ++ ys) → True := fun _ => trivial
    have hmain : tokenizeAux f [c] (some c) (w' ++ ys) =
        tokenizeAux ys.length (w'.reverse ++ [c]) (some (w'.getLastD c)) ys := by
      exact tok_run_accum w' f c [] ys
        (fun x hx => wordChar_term (hall x (by simp [hx])))
        (by simp only [List.length_cons, List.length_append] at hf ⊢; omega)
    by_cases hso : startOk prev = true
    · rw [if_pos (by simp [hso])]
      have hkw' : kwTry (c :: (w' ++ ys)) = none := hkw
      rw [hkw']
      dsimp only
      rw [hmain]
      simp only [List.reverse_cons, List.getLastD_cons]
    · rw [if_neg (by simp [hso])]
      rw [hmain]
      simp only [List.reverse_cons, List.getLastD_cons]

/-- The tokenizer hypotheses under which a query string is one plain term
word: non-empty, made of word characters, and not an operator keyword. -/
def IsPlainWord (s : String) : Prop :=
  s.data ≠ [] ∧ (∀ c ∈ s.data, isWordChar c = true) ∧
    s.data.map Char.toLower ≠ ['a', 'n', 'd'] ∧
    s.data.map Char.toLower ≠ ['o', 'r'] ∧
    s.data.map Char.toLower ≠ ['n', 'o', 't']

instance (s : String) : Decidable (IsPlainWord s) := by
  unfold IsPlainWord
  infer_instance

theorem IsPlainWord.ne_empty {s : String} (h : IsPlainWord s) : s ≠ "" := by
  intro he
  subst he
  exact h.1 rfl

/-- A plain word tokenizes to its lower-casing, as a single Term token. -/
theorem tokenize_plain {A : String} (h : IsPlainWord A) :
    tokenize_query A = [strLower A] := by
  obtain ⟨hne, hall, h1, h2, h3⟩ := h
  have hterm : ∀ c ∈ A.data, isTermChar c = true := fun c hc => wordChar_term (hall c hc)
  have hstrip : pyStrip A = A := by
    apply String.ext
    show pyStripList A.data = A.data
    apply pyStripList_eq_self
    · intro c hc
      exact (termChar_parts (hterm c (List.mem_of_mem_head? (by simp [hc])))).1
    · intro c hc
      exact (termChar_parts (hterm c (List.mem_of_mem_getLast? (by simp [hc])))).1
  have hAne : A ≠ "" := fun he => hne (by rw [he])
  show (if pyStrip A = "" then [] else tokenizeAux (pyStrip A).data.length [] none (pyStrip A).data) = _
  rw [hstrip, if_neg hAne]
  have hkw : kwTry (A.data ++ []) = none :=
    kwTry_none_word hne hall h1 h2 h3 (by intro c hc; cases hc)
  have := tok_word A.data [] A.data.length none hne hall hkw (by simp)
  rw [List.append_nil] at this
  rw [this]
  show flushRun A.data.reverse = [strLower A]
  rw [flushRun, if_neg (by simpa using hne)]
  rw [List.reverse_reverse]

theorem flushRun_word {s : String} (h : s.data ≠ []) :
    flushRun s.data.reverse = [strLower s] := by
  rw [flushRun, if_neg (by simpa using h), List.reverse_reverse]

theorem tok_nil (fuel : Nat) (run : List Char) (prev : Option Char) :
    tokenizeAux fuel run prev [] = flushRun run := by
  cases fuel <;> rfl

theorem tok_step_ws {c : Char} (hc : c.isWhitespace = true) (F : Nat)
    (run : List Char) (prev : Option Char) (cs : List Char)
    (hf : cs.length + 1 ≤ F) :
    tokenizeAux F run prev (c :: cs) =
      flushRun run ++ tokenizeAux cs.length [] (some c) cs := by
  match F with
  | 0 => omega
  | f + 1 =>
    conv_lhs => unfold tokenizeAux
    rw [hc]
    simp only [if_true]
    rw [tokenizeAux_fuel f cs [] (some c) cs.length (by omega) (Nat.le_refl _)]

theorem tok_step_kw {c : Char} {cs : List Char} {tok : String} {last : Char}
    {rest : List Char} (hkw : kwTry (c :: cs) = some (tok, last, rest))
    (hws : c.isWhitespace = false) (h1 : c ≠ '(') (h2 : c ≠ ')')
    {prev : Option Char} (hso : startOk prev = true) (F : Nat)
    (hf : cs.length + 1 ≤ F) :
    tokenizeAux F [] prev (c :: cs) =
      tok :: tokenizeAux rest.length [] (some last) rest := by
  match F with
  | 0 => omega
  | f + 1 =>
    conv_lhs => unfold tokenizeAux
    rw [hws]
    simp only [Bool.false_eq_true, if_false, if_neg h1, if_neg h2]
    rw [if_pos (by simp [hso])]
    rw [hkw]
    dsimp only
    have hr := kwTry_length hkw
    simp only [List.length_cons] at hr
    rw [tokenizeAux_fuel f rest [] (some last) rest.length (by omega) (Nat.le_refl _)]

theorem kwTry_and_lit (cs : List Char) (hb : boundaryOk cs = true) :
    kwTry ('A' :: 'N' :: 'D' :: cs) = some ("and", 'D', cs) := by
  unfold kwTry
  dsimp only
  rw [if_neg (by simp [show chEq 'A' 'o' = false from by decide])]
  rw [if_pos (by rw [hb]; decide)]

theorem kwTry_or_lit (cs : List Char) (hb : boundaryOk cs = true) :
    kwTry ('O' :: 'R' :: cs) = some ("or", 'R', cs) := by
  unfold kwTry
  dsimp only
  rw [if_pos (by rw [hb]; decide)]

theorem kwTry_not_lit (cs : List Char) (hb : boundaryOk cs = true) :
    kwTry ('N' :: 'O' :: 'T' :: cs) = some ("not", 'T', cs) := by
  unfold kwTry
  dsimp only
  rw [if_neg (by simp [show chEq 'N' 'o' = false from by decide])]
  rw [if_neg (by simp [show chEq 'N' 'a' = false from by decide])]
  rw [if_pos (by rw [hb]; decide)]

/-- Strip is the identity on `A ++ mid ++ B` when `A` starts and `B` ends
with a non-whitespace character. -/
theorem pyStrip_sandwich {A B : String} (mid : List Char)
    (hA : ∀ c, A.data.head? = some c → c.isWhitespace = false)
    (hBne : B.data ≠ [])
    (hB : ∀ c, B.data.getLast? = some c → c.isWhitespace = false)
    (hAne : A.data ≠ []) :
    pyStripList ((A.data ++ mid) ++ B.data) = (A.data ++ mid) ++ B.data := by
  apply pyStripList_eq_self
  · intro c hc
    apply hA
    rw [List.head?_append_of_ne_nil _ (by simp [hAne]),
      List.head?_append_of_ne_nil _ hAne] at hc
    exact hc
  · intro c hc
    apply hB
    rw [List.getLast?_append_of_ne_nil _ hBne] at hc
    exact hc

/-- `"A AND B"` with plain-word `A`, `B` tokenizes to
`[a, "and", b]`. -/
theorem tokenize_and_pair {A B : String} (hA : IsPlainWord A) (hB : IsPlainWord B) :
    tokenize_query (A ++ " AND " ++ B) = [strLower A, "and", strLower B] := by
  obtain ⟨hneA, hallA, hA1, hA2, hA3⟩ := hA
  obtain ⟨hneB, hallB, hB1, hB2, hB3⟩ := hB
  have htermA : ∀ c ∈ A.data, isTermChar c = true := fun c hc => wordChar_term (hallA c hc)
  have htermB : ∀ c ∈ B.data, isTermChar c = true := fun c hc => wordChar_term (hallB c hc)
  have hdata : (A ++ " AND " ++ B).data
      = (A.data ++ [' ', 'A', 'N', 'D', ' ']) ++ B.data := by
    rw [String.data_append, String.data_append]
  have hstrip : pyStrip (A ++ " AND " ++ B) = A ++ " AND " ++ B := by
    apply String.ext
    show pyStripList (A ++ " AND " ++ B).data = (A ++ " AND " ++ B).data
    rw [hdata]
    exact pyStrip_sandwich [' ', 'A', 'N', 'D', ' ']
      (fun c hc => (termChar_parts (htermA c (List.mem_of_mem_head? (by simp [hc])))).1)
      hneB
      (fun c hc => (termChar_parts (htermB c (List.mem_of_mem_getLast? (by simp [hc])))).1)
      hneA
  have hne : (A ++ " AND " ++ B) ≠ "" := by
    intro he
    have : (A ++ " AND " ++ B).data = [] := by rw [he]
    rw [hdata] at this
    simp at this
  show (if pyStrip (A ++ " AND " ++ B) = "" then []
    else tokenizeAux (pyStrip (A ++ " AND " ++ B)).data.length [] none
      (pyStrip (A ++ " AND " ++ B)).data) = _
  rw [hstrip, if_neg hne, hdata]
  rw [List.append_assoc]
  set rest1 : List Char := 'A' :: 'N' :: 'D' :: ' ' :: B.data with hrest1
  have hshape : ([' ', 'A', 'N', 'D', ' '] ++ B.data : List Char) = ' ' :: rest1 := by
    rw [hrest1]
    rfl
  rw [hshape]
  have hkwA : kwTry (A.data ++ (' ' :: rest1)) = none :=
    kwTry_none_word hneA hallA hA1 hA2 hA3
      (by
        intro c hc
        injection hc with hc
        subst hc
        decide)
  rw [tok_word A.data (' ' :: rest1) _ none hneA hallA hkwA (Nat.le_refl _)]
  rw [tok_step_ws (by decide) _ _ _ rest1 (by simp)]
  rw [flushRun_word hneA]
  have hkwand : kwTry rest1 = some ("and", 'D', ' ' :: B.data) := by
    rw [hrest1]
    exact kwTry_and_lit (' ' :: B.data) rfl
  rw [hrest1]
  rw [tok_step_kw hkwand (by decide) (by decide) (by decide) (by decide) _ (by simp)]
  rw [tok_step_ws (by decide) _ _ _ B.data (by simp)]
  have hkwB : kwTry (B.data ++ []) = none :=
    kwTry_none_word hneB hallB hB1 hB2 hB3 (by intro c hc; cases hc)
  have htB := tok_word B.data [] B.data.length (some ' ') hneB hallB hkwB (by simp)
  rw [List.append_nil] at htB
  rw [htB, tok_nil, flushRun_word hneB]
  rfl

/-- `"A OR B"` with plain-word `A`, `B` tokenizes to `[a, "or", b]`. -/
theorem tokenize_or_pair {A B : String} (hA : IsPlainWord A) (hB : IsPlainWord B) :
    tokenize_query (A ++ " OR " ++ B) = [strLower A, "or", strLower B] := by
  obtain ⟨hneA, hallA, hA1, hA2, hA3⟩ := hA
  obtain ⟨hneB, hallB, hB1, hB2, hB3⟩ := hB
  have htermA : ∀ c ∈ A.data, isTermChar c = true := fun c hc => wordChar_term (hallA c hc)
  have htermB : ∀ c ∈ B.data, isTermChar c = true := fun c hc => wordChar_term (hallB c hc)
  have hdata : (A ++ " OR " ++ B).data
      = (A.data ++ [' ', 'O', 'R', ' ']) ++ B.data := by
    rw [String.data_append, String.data_append]
  have hstrip : pyStrip (A ++ " OR " ++ B) = A ++ " OR " ++ B := by
    apply String.ext
    show pyStripList (A ++ " OR " ++ B).data = (A ++ " OR " ++ B).data
    rw [hdata]
    exact pyStrip_sandwich [' ', 'O', 'R', ' ']
      (fun c hc => (termChar_parts (htermA c (List.mem_of_mem_head? (by simp [hc])))).1)
      hneB
      (fun c hc => (termChar_parts (htermB c (List.mem_of_mem_getLast? (by simp [hc])))).1)
      hneA
  have hne : (A ++ " OR " ++ B) ≠ "" := by
    intro he
    have : (A ++ " OR " ++ B).data = [] := by rw [he]
    rw [hdata] at this
    simp at this
  show (if pyStrip (A ++ " OR " ++ B) = "" then []
    else tokenizeAux (pyStrip (A ++ " OR " ++ B)).data.length [] none
      (pyStrip (A ++ " OR " ++ B)).data) = _
  rw [hstrip, if_neg hne, hdata]
  rw [List.append_assoc]
  set rest1 : List Char := 'O' :: 'R' :: ' ' :: B.data with hrest1
  have hshape : ([' ', 'O', 'R', ' '] ++ B.data : List Char) = ' ' :: rest1 := by
    rw [hrest1]
    rfl
  rw [hshape]
  have hkwA : kwTry (A.data ++ (' ' :: rest1)) = none :=
    kwTry_none_word hneA hallA hA1 hA2 hA3
      (by
        intro c hc
        injection hc with hc
        subst hc
        decide)
  rw [tok_word A.data (' ' :: rest1) _ none hneA hallA hkwA (Nat.le_refl _)]
  rw [tok_step_ws (by decide) _ _ _ rest1 (by simp)]
  rw [flushRun_word hneA]
  have hkwor : kwTry rest1 = some ("or", 'R', ' ' :: B.data) := by
    rw [hrest1]
    exact kwTry_or_lit (' ' :: B.data) rfl
  rw [hrest1]
  rw [tok_step_kw hkwor (by decide) (by decide) (by decide) (by decide) _ (by simp)]
  rw [tok_step_ws (by decide) _ _ _ B.data (by simp)]
  have hkwB : kwTry (B.data ++ []) = none :=
    kwTry_none_word hneB hallB hB1 hB2 hB3 (by intro c hc; cases hc)
  have htB := tok_word B.data [] B.data.length (some ' ') hneB hallB hkwB (by simp)
  rw [List.append_nil] at htB
  rw [htB, tok_nil, flushRun_word hneB]
  rfl

/-- `"NOT A"` with plain-word `A` tokenizes to `["not", a]`. -/
theorem tokenize_not_prefix {A : String} (hA : IsPlainWord A) :
    tokenize_query ("NOT " ++ A) = ["not", strLower A] := by
  obtain ⟨hneA, hallA, hA1, hA2, hA3⟩ := hA
  have htermA : ∀ c ∈ A.data, isTermChar c = true := fun c hc => wordChar_term (hallA c hc)
  have hdata : ("NOT " ++ A).data = 'N' :: 'O' :: 'T' :: ' ' :: A.data := by
    rw [String.data_append]
    rfl
  have hstrip : pyStrip ("NOT " ++ A) = "NOT " ++ A := by
    apply String.ext
    show pyStripList ("NOT " ++ A).data = ("NOT " ++ A).data
    rw [hdata]
    apply pyStripList_eq_self
    · intro c hc
      injection hc with hc
      subst hc
      decide
    · intro c hc
      have : (('N' :: 'O' :: 'T' :: ' ' :: []) ++ A.data).getLast? = some c := by
        simpa using hc
      rw [List.getLast?_append_of_ne_nil _ hneA] at this
      exact (termChar_parts (htermA c (List.mem_of_mem_getLast? (by simp [this])))).1
  have hne : ("NOT " ++ A) ≠ "" := by
    intro he
    have : ("NOT " ++ A).data = [] := by rw [he]
    rw [hdata] at this
    simp at this
  show (if pyStrip ("NOT " ++ A) = "" then []
    else tokenizeAux (pyStrip ("NOT " ++ A)).data.length [] none
      (pyStrip ("NOT " ++ A)).data) = _
  rw [hstrip, if_neg hne, hdata]
  have hkwnot : kwTry ('N' :: 'O' :: 'T' :: ' ' :: A.data) = some ("not", 'T', ' ' :: A.data) :=
    kwTry_not_lit (' ' :: A.data) rfl
  rw [tok_step_kw hkwnot (by decide) (by decide) (by decide) (by decide) _ (by simp)]
  rw [tok_step_ws (by decide) _ _ _ A.data (by simp)]
  have hkwA : kwTry (A.data ++ []) = none :=
    kwTry_none_word hneA hallA hA1 hA2 hA3 (by intro c hc; cases hc)
  have htA := tok_word A.data [] A.data.length (some ' ') hneA hallA hkwA (by simp)
  rw [List.append_nil] at htA
  rw [htA, tok_nil, flushRun_word hneA]
  rfl

/-! ### QueryParser/Evaluator

`QueryParser` holds `tokens`, `pos`, `index` and `all_doc_ids`; the only
field the methods assign is `pos` (`self.pos += 1` in `consume`).  The
embedding passes the whole object state explicitly and returns the final
state, so that "evaluation leaves index and universe unchanged" is a
provable statement.  Each parse function returns its value together with
the final state and a proof that the run preserved everything but `pos`
and never moved `pos` backwards — the facts that also justify
termination. -/

structure QPState where
  tokens : List String
  pos : Nat
  index : Dict
  allDocIds : Finset Int

/-- `peek`. -/
def QPState.peek (st : QPState) : Option String := st.tokens[st.pos]?

/-- `consume` (`self.pos += 1` guarded by `pos < len(tokens)`). -/
def QPState.consume (st : QPState) : QPState :=
  if st.pos < st.tokens.length then { st with pos := st.pos + 1 } else st

/-- `term_set`: `self.index.get(term, set()).copy()` — `.copy()` is the
identity on set values. -/
def term_set (st : QPState) (t : String) : Finset Int := st.index.getD t

/-- What a parser run preserves: every field except `pos`, and `pos` is
monotone. -/
def QPState.Preserves (st st' : QPState) : Prop :=
  st'.tokens = st.tokens ∧ st'.index = st.index ∧
    st'.allDocIds = st.allDocIds ∧ st.pos ≤ st'.pos

theorem QPState.Preserves.refl (st : QPState) : st.Preserves st :=
  ⟨rfl, rfl, rfl, Nat.le_refl _⟩

theorem QPState.Preserves.trans {s1 s2 s3 : QPState}
    (h1 : s1.Preserves s2) (h2 : s2.Preserves s3) : s1.Preserves s3 :=
  ⟨h2.1.trans h1.1, h2.2.1.trans h1.2.1, h2.2.2.1.trans h1.2.2.1,
    h1.2.2.2.trans h2.2.2.2⟩

@[simp] theorem QPState.consume_tokens (st : QPState) :
    st.consume.tokens = st.tokens := by
  unfold QPState.consume; split <;> simp

@[simp] theorem QPState.consume_index (st : QPState) :
    st.consume.index = st.index := by
  unfold QPState.consume; split <;> simp

@[simp] theorem QPState.consume_allDocIds (st : QPState) :
    st.consume.allDocIds = st.allDocIds := by
  unfold QPState.consume; split <;> simp

theorem QPState.pos_le_consume (st : QPState) : st.pos ≤ st.consume.pos := by
  unfold QPState.consume; split <;> simp

theorem QPState.consume_preserves (st : QPState) : st.Preserves st.consume :=
  ⟨st.consume_tokens, st.consume_index, st.consume_allDocIds, st.pos_le_consume⟩

theorem QPState.peek_lt {st : QPState} {t : String} (h : st.peek = some t) :
    st.pos < st.tokens.length := by
  have := List.getElem?_eq_some.mp h
  exact this.1

theorem QPState.consume_pos_of_peek {st : QPState} {t : String}
    (h : st.peek = some t) : st.consume.pos = st.pos + 1 := by
  unfold QPState.consume
  rw [if_pos (st.peek_lt h)]

theorem lexOfLt {a b c d : Nat} (h : a < c) :
    Prod.Lex (· < ·) (· < ·) (a, b) (c, d) := Prod.Lex.left _ _ h

theorem lexOfLe {a b c d : Nat} (h1 : a ≤ c) (h2 : b < d) :
    Prod.Lex (· < ·) (· < ·) (a, b) (c, d) := by
  rcases Nat.lt_or_ge a c with h | h
  · exact Prod.Lex.left _ _ h
  · have : a = c := Nat.le_antisymm h1 h
    subst this
    exact Prod.Lex.right _ h2

/-- A parse result: the value and the final parser state with its
preservation certificate. -/
def PRes (st : QPState) := Finset Int × {st' : QPState // st.Preserves st'}

mutual

/-- `parse_primary`: term | `(` expression `)` | `NOT` primary; the empty
set when the next token is an operator, `)` or end of input. -/
def parse_primary (st : QPState) : PRes st :=
  match hp : st.peek with
  | none => (∅, ⟨st, QPState.Preserves.refl st⟩)
  | some t =>
    if t = "(" then
      match parse_or st.consume with
      | (s, ⟨st1, h1⟩) =>
        if st1.peek = some ")" then
          (s, ⟨st1.consume,
            (st.consume_preserves.trans h1).trans st1.consume_preserves⟩)
        else (s, ⟨st1, st.consume_preserves.trans h1⟩)
    else if t = "not" then
      match parse_primary st.consume with
      | (inner, ⟨st1, h1⟩) =>
        (st.allDocIds \ inner, ⟨st1, st.consume_preserves.trans h1⟩)
    else if t ≠ "and" ∧ t ≠ "or" ∧ t ≠ ")" then
      (term_set st t, ⟨st.consume, st.consume_preserves⟩)
    else (∅, ⟨st, QPState.Preserves.refl st⟩)
termination_by (st.tokens.length - st.pos, 0)
decreasing_by
  · have hlt := st.peek_lt hp
    have hpos := st.consume_pos_of_peek hp
    apply lexOfLt
    rw [st.consume_tokens, hpos]
    omega
  · have hlt := st.peek_lt hp
    have hpos := st.consume_pos_of_peek hp
    apply lexOfLt
    rw [st.consume_tokens, hpos]
    omega

/-- The `while self.peek() == AND_OP` loop of `parse_and`, with `left`
the set accumulated so far. -/
def parse_and_loop (st : QPState) (left : Finset Int) : PRes st :=
  if hand : st.peek = some "and" then
    match parse_primary st.consume with
    | (right, ⟨st1, h1⟩) =>
      match parse_and_loop st1 (left ∩ right) with
      | (v, ⟨st2, h2⟩) => (v, ⟨st2, (st.consume_preserves.trans h1).trans h2⟩)
  else (left, ⟨st, QPState.Preserves.refl st⟩)
termination_by (st.tokens.length - st.pos, 1)
decreasing_by
  · have hlt := st.peek_lt hand
    have hpos := st.consume_pos_of_peek hand
    apply lexOfLt
    rw [st.consume_tokens, hpos]
    omega
  · have hlt := st.peek_lt hand
    have hpos := st.consume_pos_of_peek hand
    have ht : st1.tokens = st.tokens := by
      rw [h1.1, st.consume_tokens]
    have hp1 : st.pos + 1 ≤ st1.pos := by
      have hmono := h1.2.2.2
      rw [st.consume_pos_of_peek hand] at hmono
      exact hmono
    apply lexOfLt
    rw [ht]
    omega

/-- `parse_and`. -/
def parse_and (st : QPState) : PRes st :=
  match parse_primary st with
  | (left, ⟨st1, h1⟩) =>
    match parse_and_loop st1 left with
    | (v, ⟨st2, h2⟩) => (v, ⟨st2, h1.trans h2⟩)
termination_by (st.tokens.length - st.pos, 2)
decreasing_by
  · exact lexOfLe (Nat.le_refl _) (by omega)
  · have ht : st1.tokens = st.tokens := h1.1
    apply lexOfLe
    · rw [ht]
      have hmono := h1.2.2.2
      omega
    · omega

/-- The `while self.peek() == OR_OP` loop of `parse_or`. -/
def parse_or_loop (st : QPState) (left : Finset Int) : PRes st :=
  if hor : st.peek = some "or" then
    match parse_and st.consume with
    | (right, ⟨st1, h1⟩) =>
      match parse_or_loop st1 (left ∪ right) with
      | (v, ⟨st2, h2⟩) => (v, ⟨st2, (st.consume_preserves.trans h1).trans h2⟩)
  else (left, ⟨st, QPState.Preserves.refl st⟩)
termination_by (st.tokens.length - st.pos, 3)
decreasing_by
  · have hlt := st.peek_lt hor
    have hpos := st.consume_pos_of_peek hor
    apply lexOfLt
    rw [st.consume_tokens, hpos]
    omega
  · have hlt := st.peek_lt hor
    have hpos := st.consume_pos_of_peek hor
    have ht : st1.tokens = st.tokens := by
      rw [h1.1, st.consume_tokens]
    have hp1 : st.pos + 1 ≤ st1.pos := by
      have hmono := h1.2.2.2
      rw [st.consume_pos_of_peek hor] at hmono
      exact hmono
    apply lexOfLt
    rw [ht]
    omega

/-- `parse_or`. -/
def parse_or (st : QPState) : PRes st :=
  match parse_and st with
  | (left, ⟨st1, h1⟩) =>
    match parse_or_loop st1 left with
    | (v, ⟨st2, h2⟩) => (v, ⟨st2, h1.trans h2⟩)
termination_by (st.tokens.length - st.pos, 4)
decreasing_by
  · exact lexOfLe (Nat.le_refl _) (by omega)
  · have ht : st1.tokens = st.tokens := h1.1
    apply lexOfLe
    · rw [ht]
      have hmono := h1.2.2.2
      omega
    · omega

end

/-- `QueryParser.parse`: evaluate the first top-level `orExpr`; whatever
tokens remain are ignored. -/
def QueryParser.parse (st : QPState) : PRes st := parse_or st

/-- The parser object `QueryParser(tokens, index, all_doc_ids)`. -/
def mkParser (tokens : List String) (index : Dict) (allDocIds : Finset Int) : QPState :=
  ⟨tokens, 0, index, allDocIds⟩

/-- `boolean_search(query_str, index, all_doc_ids)`. -/
def boolean_search (query : String) (index : Dict) (allDocIds : Finset Int) : Finset Int :=
  let tokens := tokenize_query query
  if tokens = [] then ∅
  else (QueryParser.parse (mkParser tokens index allDocIds)).1

/-- `boolean_search` observed together with the final parser state (for
the frame property; when the token list is empty no parser is built and
the inputs are returned as they are). -/
def boolean_search_run (query : String) (index : Dict) (allDocIds : Finset Int) :
    Finset Int × QPState :=
  let tokens := tokenize_query query
  if tokens = [] then (∅, mkParser tokens index allDocIds)
  else
    ((QueryParser.parse (mkParser tokens index allDocIds)).1,
     (QueryParser.parse (mkParser tokens index allDocIds)).2.val)

/-! ### Component views of the parser and their defining equations

`primV/primS` etc. project the value and final state of each parse
function; the `*_eq_*` lemmas below restate the source's control flow in
terms of these projections, which makes later proofs independent of the
well-founded-recursion plumbing. -/

def primV (st : QPState) : Finset Int := (parse_primary st).1

def primS (st : QPState) : QPState := (parse_primary st).2.val

def andLoopV (st : QPState) (left : Finset Int) : Finset Int := (parse_and_loop st left).1

def andLoopS (st : QPState) (left : Finset Int) : QPState := (parse_and_loop st left).2.val

def andV (st : QPState) : Finset Int := (parse_and st).1

def andS (st : QPState) : QPState := (parse_and st).2.val

def orLoopV (st : QPState) (left : Finset Int) : Finset Int := (parse_or_loop st left).1

def orLoopS (st : QPState) (left : Finset Int) : QPState := (parse_or_loop st left).2.val

def orV (st : QPState) : Finset Int := (parse_or st).1

def orS (st : QPState) : QPState := (parse_or st).2.val

theorem prim_eq_none {st : QPState} (h : st.peek = none) :
    primV st = ∅ ∧ primS st = st := by
  unfold primV primS parse_primary
  split
  · exact ⟨rfl, rfl⟩
  · rename_i t hp
    rw [h] at hp
    cases hp

theorem prim_eq_lparen {st : QPState} (h : st.peek = some "(") :
    primV st = orV st.consume ∧
      primS st = (if (orS st.consume).peek = some ")" then (orS st.consume).consume
        else orS st.consume) := by
  unfold primV primS parse_primary
  split
  · rename_i hp
    rw [h] at hp
    cases hp
  · rename_i t hp
    rw [h] at hp
    injection hp with ht
    subst ht
    rw [if_pos rfl]
    rcases hr : parse_or st.consume with ⟨s, ⟨st1, h1⟩⟩
    have hv : orV st.consume = s := by rw [orV, hr]
    have hs : orS st.consume = st1 := by rw [orS, hr]
    rw [hv, hs]
    dsimp only
    by_cases hc : st1.peek = some ")"
    · rw [if_pos hc, if_pos hc]
      exact ⟨rfl, rfl⟩
    · rw [if_neg hc, if_neg hc]
      exact ⟨rfl, rfl⟩

theorem prim_eq_not {st : QPState} (h : st.peek = some "not") :
    primV st = st.allDocIds \ primV st.consume ∧ primS st = primS st.consume := by
  rcases hr : parse_primary st.consume with ⟨inner, ⟨st1, h1⟩⟩
  have hv : primV st.consume = inner := by rw [primV, hr]
  have hs : primS st.consume = st1 := by rw [primS, hr]
  rw [hv, hs]
  unfold primV primS parse_primary
  split
  · rename_i hp
    rw [h] at hp
    cases hp
  · rename_i t hp
    rw [h] at hp
    injection hp with ht
    subst ht
    rw [if_neg (by decide), if_pos rfl]
    rw [hr]
    exact ⟨rfl, rfl⟩

theorem prim_eq_term {st : QPState} {t : String} (h : st.peek = some t)
    (h1 : t ≠ "(") (h2 : t ≠ "not") (h3 : t ≠ "and") (h4 : t ≠ "or")
    (h5 : t ≠ ")") :
    primV st = term_set st t ∧ primS st = st.consume := by
  unfold primV primS parse_primary
  split
  · rename_i hp
    rw [h] at hp
    cases hp
  · rename_i t' hp
    rw [h] at hp
    injection hp with ht
    subst ht
    rw [if_neg h1, if_neg h2, if_pos ⟨h3, h4, h5⟩]
    exact ⟨rfl, rfl⟩

theorem prim_eq_stop {st : QPState} {t : String} (h : st.peek = some t)
    (ht : t = "and" ∨ t = "or" ∨ t = ")") :
    primV st = ∅ ∧ primS st = st := by
  unfold primV primS parse_primary
  split
  · rename_i hp
    rw [h] at hp
    cases hp
  · rename_i t' hp
    rw [h] at hp
    injection hp with hte
    subst hte
    have h1 : t ≠ "(" := by rcases ht with h | h | h <;> subst h <;> decide
    have h2 : t ≠ "not" := by rcases ht with h | h | h <;> subst h <;> decide
    have h3 : ¬(t ≠ "and" ∧ t ≠ "or" ∧ t ≠ ")") := by
      rcases ht with h | h | h <;> subst h <;> simp
    rw [if_neg h1, if_neg h2, if_neg h3]
    exact ⟨rfl, rfl⟩

theorem andLoop_eq_top {st : QPState} {left : Finset Int}
    (h : st.peek = some "and") :
    andLoopV st left = andLoopV (primS st.consume) (left ∩ primV st.consume) ∧
      andLoopS st left = andLoopS (primS st.consume) (left ∩ primV st.consume) := by
  rcases hr : parse_primary st.consume with ⟨right, ⟨st1, h1⟩⟩
  have hv : primV st.consume = right := by rw [primV, hr]
  have hs : primS st.consume = st1 := by rw [primS, hr]
  rw [hv, hs]
  rcases hr2 : parse_and_loop st1 (left ∩ right) with ⟨v, ⟨st2, h2⟩⟩
  have hv2 : andLoopV st1 (left ∩ right) = v := by rw [andLoopV, hr2]
  have hs2 : andLoopS st1 (left ∩ right) = st2 := by rw [andLoopS, hr2]
  rw [hv2, hs2]
  unfold andLoopV andLoopS
  rw [parse_and_loop]
  rw [dif_pos h]
  rw [hr]
  dsimp only
  rw [hr2]
  exact ⟨rfl, rfl⟩

theorem andLoop_eq_exit {st : QPState} {left : Finset Int}
    (h : ¬st.peek = some "and") :
    andLoopV st left = left ∧ andLoopS st left = st := by
  unfold andLoopV andLoopS
  rw [parse_and_loop]
  rw [dif_neg h]
  exact ⟨rfl, rfl⟩

theorem and_eq (st : QPState) :
    andV st = andLoopV (primS st) (primV st) ∧
      andS st = andLoopS (primS st) (primV st) := by
  rcases hr : parse_primary st with ⟨left, ⟨st1, h1⟩⟩
  have hv : primV st = left := by rw [primV, hr]
  have hs : primS st = st1 := by rw [primS, hr]
  rw [hv, hs]
  rcases hr2 : parse_and_loop st1 left with ⟨v, ⟨st2, h2⟩⟩
  have hv2 : andLoopV st1 left = v := by rw [andLoopV, hr2]
  have hs2 : andLoopS st1 left = st2 := by rw [andLoopS, hr2]
  rw [hv2, hs2]
  unfold andV andS
  rw [parse_and]
  rw [hr]
  dsimp only
  rw [hr2]
  exact ⟨rfl, rfl⟩

theorem orLoop_eq_top {st : QPState} {left : Finset Int}
    (h : st.peek = some "or") :
    orLoopV st left = orLoopV (andS st.consume) (left ∪ andV st.consume) ∧
      orLoopS st left = orLoopS (andS st.consume) (left ∪ andV st.consume) := by
  rcases hr : parse_and st.consume with ⟨right, ⟨st1, h1⟩⟩
  have hv : andV st.consume = right := by rw [andV, hr]
  have hs : andS st.consume = st1 := by rw [andS, hr]
  rw [hv, hs]
  rcases hr2 : parse_or_loop st1 (left ∪ right) with ⟨v, ⟨st2, h2⟩⟩
  have hv2 : orLoopV st1 (left ∪ right) = v := by rw [orLoopV, hr2]
  have hs2 : orLoopS st1 (left ∪ right) = st2 := by rw [orLoopS, hr2]
  rw [hv2, hs2]
  unfold orLoopV orLoopS
  rw [parse_or_loop]
  rw [dif_pos h]
  rw [hr]
  dsimp only
  rw [hr2]
  exact ⟨rfl, rfl⟩

theorem orLoop_eq_exit {st : QPState} {left : Finset Int}
    (h : ¬st.peek = some "or") :
    orLoopV st left = left ∧ orLoopS st left = st := by
  unfold orLoopV orLoopS
  rw [parse_or_loop]
  rw [dif_neg h]
  exact ⟨rfl, rfl⟩

theorem or_eq (st : QPState) :
    orV st = orLoopV (andS st) (andV st) ∧
      orS st = orLoopS (andS st) (andV st) := by
  rcases hr : parse_and st with ⟨left, ⟨st1, h1⟩⟩
  have hv : andV st = left := by rw [andV, hr]
  have hs : andS st = st1 := by rw [andS, hr]
  rw [hv, hs]
  rcases hr2 : parse_or_loop st1 left with ⟨v, ⟨st2, h2⟩⟩
  have hv2 : orLoopV st1 left = v := by rw [orLoopV, hr2]
  have hs2 : orLoopS st1 left = st2 := by rw [orLoopS, hr2]
  rw [hv2, hs2]
  unfold orV orS
  rw [parse_or]
  rw [hr]
  dsimp only
  rw [hr2]
  exact ⟨rfl, rfl⟩

/-! ### Evaluating the parser symbolically on small token lists -/

/-- Preservation facts of the whole `parse_or` run, in projection form. -/
theorem orS_preserves (st : QPState) : st.Preserves (orS st) :=
  (parse_or st).2.property

theorem andS_preserves (st : QPState) : st.Preserves (andS st) :=
  (parse_and st).2.property

theorem primS_preserves (st : QPState) : st.Preserves (primS st) :=
  (parse_primary st).2.property

theorem andLoopS_preserves (st : QPState) (left : Finset Int) :
    st.Preserves (andLoopS st left) :=
  (parse_and_loop st left).2.property

theorem orLoopS_preserves (st : QPState) (left : Finset Int) :
    st.Preserves (orLoopS st left) :=
  (parse_or_loop st left).2.property

/-- A token that the parser treats as a plain term. -/
def IsTermToken (a : String) : Prop :=
  a ≠ "(" ∧ a ≠ ")" ∧ a ≠ "not" ∧ a ≠ "and" ∧ a ≠ "or"

instance (a : String) : Decidable (IsTermToken a) := by
  unfold IsTermToken
  infer_instance

/-- One-term token stream: the result is the term's posting set. -/
theorem parse_single (idx : Dict) (U : Finset Int) (a : String)
    (ha : IsTermToken a) :
    orV (mkParser [a] idx U) = idx.getD a := by
  obtain ⟨h1, h2, h3, h4, h5⟩ := ha
  set st0 : QPState := mkParser [a] idx U with hst0
  have p0 : st0.peek = some a := rfl
  have c0 : st0.consume = ⟨[a], 1, idx, U⟩ := rfl
  have hprim := prim_eq_term p0 h1 h3 h4 h5 h2
  have p1 : (⟨[a], 1, idx, U⟩ : QPState).peek = none := rfl
  rw [(or_eq st0).1, (and_eq st0).1, (and_eq st0).2, hprim.1, hprim.2, c0]
  rw [(andLoop_eq_exit (by rw [p1]; intro h; cases h)).1,
      (andLoop_eq_exit (by rw [p1]; intro h; cases h)).2]
  rw [(orLoop_eq_exit (by rw [p1]; intro h; cases h)).1]
  rfl

/-- `[a, "and", b]`: intersection of the two posting sets. -/
theorem parse_term_and_term (idx : Dict) (U : Finset Int) (a b : String)
    (ha : IsTermToken a) (hb : IsTermToken b) :
    orV (mkParser [a, "and", b] idx U) = idx.getD a ∩ idx.getD b := by
  obtain ⟨ha1, ha2, ha3, ha4, ha5⟩ := ha
  obtain ⟨hb1, hb2, hb3, hb4, hb5⟩ := hb
  set st0 : QPState := mkParser [a, "and", b] idx U with hst0
  have p0 : st0.peek = some a := rfl
  have c0 : st0.consume = ⟨[a, "and", b], 1, idx, U⟩ := rfl
  have hprim := prim_eq_term p0 ha1 ha3 ha4 ha5 ha2
  have p1 : (⟨[a, "and", b], 1, idx, U⟩ : QPState).peek = some ("and") := rfl
  have c1 : (⟨[a, "and", b], 1, idx, U⟩ : QPState).consume = ⟨[a, "and", b], 2, idx, U⟩ := rfl
  have p2 : (⟨[a, "and", b], 2, idx, U⟩ : QPState).peek = some b := rfl
  have c2 : (⟨[a, "and", b], 2, idx, U⟩ : QPState).consume = ⟨[a, "and", b], 3, idx, U⟩ := rfl
  have p3 : (⟨[a, "and", b], 3, idx, U⟩ : QPState).peek = none := rfl
  have hprim2 := prim_eq_term p2 hb1 hb3 hb4 hb5 hb2
  rw [(or_eq st0).1, (and_eq st0).1, (and_eq st0).2, hprim.1, hprim.2, c0]
  rw [(andLoop_eq_top p1).1, (andLoop_eq_top p1).2, c1, hprim2.1, hprim2.2, c2]
  rw [(andLoop_eq_exit (by rw [p3]; intro h; cases h)).1,
      (andLoop_eq_exit (by rw [p3]; intro h; cases h)).2]
  rw [(orLoop_eq_exit (by rw [p3]; intro h; cases h)).1]
  rfl

/-- `[a, "or", b]`: union of the two posting sets. -/
theorem parse_term_or_term (idx : Dict) (U : Finset Int) (a b : String)
    (ha : IsTermToken a) (hb : IsTermToken b) :
    orV (mkParser [a, "or", b] idx U) = idx.getD a ∪ idx.getD b := by
  obtain ⟨ha1, ha2, ha3, ha4, ha5⟩ := ha
  obtain ⟨hb1, hb2, hb3, hb4, hb5⟩ := hb
  set st0 : QPState := mkParser [a, "or", b] idx U with hst0
  have p0 : st0.peek = some a := rfl
  have c0 : st0.consume = ⟨[a, "or", b], 1, idx, U⟩ := rfl
  have hprim := prim_eq_term p0 ha1 ha3 ha4 ha5 ha2
  have p1 : (⟨[a, "or", b], 1, idx, U⟩ : QPState).peek = some ("or") := rfl
  have c1 : (⟨[a, "or", b], 1, idx, U⟩ : QPState).consume = ⟨[a, "or", b], 2, idx, U⟩ := rfl
  have p2 : (⟨[a, "or", b], 2, idx, U⟩ : QPState).peek = some b := rfl
  have c2 : (⟨[a, "or", b], 2, idx, U⟩ : QPState).consume = ⟨[a, "or", b], 3, idx, U⟩ := rfl
  have p3 : (⟨[a, "or", b], 3, idx, U⟩ : QPState).peek = none := rfl
  have hprim2 := prim_eq_term p2 hb1 hb3 hb4 hb5 hb2
  rw [(or_eq st0).1, (and_eq st0).1, (and_eq st0).2, hprim.1, hprim.2, c0]
  rw [(andLoop_eq_exit (by rw [p1]; intro h; injection h; simp_all)).1,
      (andLoop_eq_exit (by rw [p1]; intro h; injection h; simp_all)).2]
  rw [(orLoop_eq_top p1).1, c1]
  rw [(and_eq (⟨[a, "or", b], 2, idx, U⟩ : QPState)).1,
      (and_eq (⟨[a, "or", b], 2, idx, U⟩ : QPState)).2]
  rw [hprim2.1, hprim2.2, c2]
  rw [(andLoop_eq_exit (by rw [p3]; intro h; cases h)).1,
      (andLoop_eq_exit (by rw [p3]; intro h; cases h)).2]
  rw [(orLoop_eq_exit (by rw [p3]; intro h; cases h)).1]
  rfl

/-- `["not", a]`: complement with respect to the universe. -/
theorem parse_not_term (idx : Dict) (U : Finset Int) (a : String)
    (ha : IsTermToken a) :
    orV (mkParser ["not", a] idx U) = U \ idx.getD a := by
  obtain ⟨h1, h2, h3, h4, h5⟩ := ha
  set st0 : QPState := mkParser ["not", a] idx U with hst0
  have p0 : st0.peek = some ("not") := rfl
  have c0 : st0.consume = ⟨["not", a], 1, idx, U⟩ := rfl
  have p1 : (⟨["not", a], 1, idx, U⟩ : QPState).peek = some a := rfl
  have c1 : (⟨["not", a], 1, idx, U⟩ : QPState).consume = ⟨["not", a], 2, idx, U⟩ := rfl
  have p2 : (⟨["not", a], 2, idx, U⟩ : QPState).peek = none := rfl
  have hn := prim_eq_not p0
  have hprim := prim_eq_term p1 h1 h3 h4 h5 h2
  rw [(or_eq st0).1, (and_eq st0).1, (and_eq st0).2, hn.1, hn.2, c0, hprim.1, hprim.2, c1]
  rw [(andLoop_eq_exit (by rw [p2]; intro h; cases h)).1,
      (andLoop_eq_exit (by rw [p2]; intro h; cases h)).2]
  rw [(orLoop_eq_exit (by rw [p2]; intro h; cases h)).1]
  rfl

/-- `[a, b]` (two adjacent terms, no operator): only the first term is
evaluated; the second is silently ignored. -/
theorem parse_term_term (idx : Dict) (U : Finset Int) (a b : String)
    (ha : IsTermToken a) (hb : b ≠ "and" ∧ b ≠ "or") :
    orV (mkParser [a, b] idx U) = idx.getD a := by
  obtain ⟨h1, h2, h3, h4, h5⟩ := ha
  set st0 : QPState := mkParser [a, b] idx U with hst0
  have p0 : st0.peek = some a := rfl
  have c0 : st0.consume = ⟨[a, b], 1, idx, U⟩ := rfl
  have hprim := prim_eq_term p0 h1 h3 h4 h5 h2
  have p1 : (⟨[a, b], 1, idx, U⟩ : QPState).peek = some b := rfl
  rw [(or_eq st0).1, (and_eq st0).1, (and_eq st0).2, hprim.1, hprim.2, c0]
  rw [(andLoop_eq_exit (by rw [p1]; intro h; injection h; simp_all)).1,
      (andLoop_eq_exit (by rw [p1]; intro h; injection h; simp_all)).2]
  rw [(orLoop_eq_exit (by rw [p1]; intro h; injection h; simp_all)).1]
  rfl

/-- `")" :: ts` (stray leading close): the whole query is the empty set,
whatever follows. -/
theorem parse_leading_close (idx : Dict) (U : Finset Int) (ts : List String) :
    orV (mkParser (")" :: ts) idx U) = ∅ := by
  set st0 : QPState := mkParser (")" :: ts) idx U with hst0
  have p0 : st0.peek = some (")") := by
    rw [hst0]
    show ((")" :: ts : List String))[0]? = some (")")
    simp
  have hprim := prim_eq_stop p0 (Or.inr (Or.inr rfl))
  rw [(or_eq st0).1, (and_eq st0).1, (and_eq st0).2, hprim.1, hprim.2]
  rw [(andLoop_eq_exit (by rw [p0]; intro h; injection h; simp_all)).1,
      (andLoop_eq_exit (by rw [p0]; intro h; injection h; simp_all)).2]
  rw [(orLoop_eq_exit (by rw [p0]; intro h; injection h; simp_all)).1]

/-! ### Claim theorems -/

theorem IsPlainWord.not_op {A : String} (h : IsPlainWord A) :
    IsTermToken (strLower A) := by
  obtain ⟨hne, hall, h1, h2, h3⟩ := h
  have hdata : (strLower A).data = A.data.map Char.toLower := rfl
  have hparen : ∀ p : Char, p.toNat < 97 → isWordChar p = false →
      strLower A ≠ String.mk [p] := by
    intro p hp hw he
    have hd : A.data.map Char.toLower = [p] := by
      rw [← hdata, he]
    match hA : A.data, hd with
    | [c], hd =>
      simp only [List.map_cons, List.map_nil, List.cons.injEq, and_true] at hd
      have hc : c = p := toLower_eq_of_nonletter hd (by omega)
      subst hc
      have hcw := hall c (by rw [hA]; simp)
      rw [hcw] at hw
      cases hw
  refine ⟨hparen '(' (by decide) (by decide), hparen ')' (by decide) (by decide), ?_, ?_, ?_⟩
  · intro he
    exact h3 (by rw [← hdata, he])
  · intro he
    exact h1 (by rw [← hdata, he])
  · intro he
    exact h2 (by rw [← hdata, he])

/-- Search of a single plain-word query. -/
theorem boolean_search_plain (idx : Dict) (U : Finset Int) (A : String)
    (hA : IsPlainWord A) :
    boolean_search A idx U = idx.getD (strLower A) := by
  rw [boolean_search]
  rw [tokenize_plain hA]
  rw [if_neg (by simp)]
  exact parse_single idx U (strLower A) hA.not_op

/-- A character of Python's `\w` on which the model is exact: an ASCII
letter, digit or underscore. -/
def isAsciiWordChar (c : Char) : Bool := c.isAlphanum || c == '_'

/-- A query string that is one plain ASCII term word: nonempty, ASCII
letters/digits/underscore only, and not an operator keyword.  On such
strings the embedded tokenizer, `strLower` and CPython agree exactly, so
the claim theorems about whole queries quantify over these. -/
def IsAsciiWord (s : String) : Prop :=
  s.data ≠ [] ∧ (∀ c ∈ s.data, isAsciiWordChar c = true) ∧
    s.data.map Char.toLower ≠ ['a', 'n', 'd'] ∧
    s.data.map Char.toLower ≠ ['o', 'r'] ∧
    s.data.map Char.toLower ≠ ['n', 'o', 't']

instance (s : String) : Decidable (IsAsciiWord s) := by
  unfold IsAsciiWord
  infer_instance

theorem asciiWordChar_word {c : Char} (h : isAsciiWordChar c = true) :
    isWordChar c = true := by
  rw [isAsciiWordChar, Bool.or_eq_true] at h
  rcases h with h | h <;> simp [isWordChar, h]

theorem IsAsciiWord.plain {s : String} (h : IsAsciiWord s) : IsPlainWord s :=
  ⟨h.1, fun c hc => asciiWordChar_word (h.2.1 c hc), h.2.2.1, h.2.2.2.1, h.2.2.2.2⟩

/-- C7: evaluating a TERM token returns that lemma's posting set from the
index — the stored set when the lemma is a key of the loaded index, and
the empty set when it is absent; a query for an unindexed plain ASCII
word yields the empty result set, never an error. -/
theorem C7_term_eval :
    (∀ (st : QPState) (t : String), st.peek = some t → IsTermToken t →
      primV st = st.index.getD t ∧ primS st = st.consume) ∧
    (∀ (d : Dict) (t : String), t ∈ d.keys → d.getD t = d.val t) ∧
    (∀ (d : Dict) (t : String), t ∉ d.keys → d.getD t = ∅) ∧
    (∀ (idx : Dict) (U : Finset Int) (A : String), IsAsciiWord A →
      strLower A ∉ idx.keys → boolean_search A idx U = ∅) := by
  refine ⟨?_, ?_, ?_, ?_⟩
  · intro st t hp ht
    exact prim_eq_term hp ht.1 ht.2.2.1 ht.2.2.2.1 ht.2.2.2.2 ht.2.1
  · intro d t ht
    rw [Dict.getD, if_pos ht]
  · intro d t ht
    rw [Dict.getD, if_neg ht]
  · intro idx U A hA habs
    rw [boolean_search_plain idx U A hA.plain, Dict.getD, if_neg habs]

theorem C7_term_eval_witness :
    (IsAsciiWord ("dog") ∧ strLower ("dog") ∉ (Dict.empty.add ("cat") 1).keys) ∧
    boolean_search ("dog") (Dict.empty.add ("cat") 1) {1, 2} = ∅ :=
  ⟨⟨by decide, by decide⟩,
    C7_term_eval.2.2.2 (Dict.empty.add ("cat") 1) {1, 2} ("dog") (by decide) (by decide)⟩

/-- C8: running a search leaves the loaded inverted index, the universe
set and the token list unchanged: the final parser state of every parse
function, and of `boolean_search`, carries exactly the `index`,
`all_doc_ids` and `tokens` it started from — only `pos` has moved. -/
theorem C8_no_mutation :
    (∀ st : QPState, (orS st).index = st.index ∧ (orS st).allDocIds = st.allDocIds ∧
      (orS st).tokens = st.tokens) ∧
    (∀ st : QPState, (andS st).index = st.index ∧ (andS st).allDocIds = st.allDocIds ∧
      (andS st).tokens = st.tokens) ∧
    (∀ st : QPState, (primS st).index = st.index ∧ (primS st).allDocIds = st.allDocIds ∧
      (primS st).tokens = st.tokens) ∧
    (∀ (q : String) (idx : Dict) (U : Finset Int),
      (boolean_search_run q idx U).2.index = idx ∧
      (boolean_search_run q idx U).2.allDocIds = U) := by
  refine ⟨?_, ?_, ?_, ?_⟩
  · intro st
    have h := orS_preserves st
    exact ⟨h.2.1, h.2.2.1, h.1⟩
  · intro st
    have h := andS_preserves st
    exact ⟨h.2.1, h.2.2.1, h.1⟩
  · intro st
    have h := primS_preserves st
    exact ⟨h.2.1, h.2.2.1, h.1⟩
  · intro q idx U
    rw [boolean_search_run]
    split
    · exact ⟨rfl, rfl⟩
    · have h := orS_preserves (mkParser (tokenize_query q) idx U)
      exact ⟨h.2.1, h.2.2.1⟩

/-- C9: `parse` returns the value of the first top-level orExpr and
silently ignores the tokens after it: a query of two adjacent terms
returns only the first term's posting set, and a stray leading closing
parenthesis makes the whole query evaluate to the empty set. -/
theorem C9_first_orexpr :
    (∀ st : QPState, (QueryParser.parse st).1 = orV st) ∧
    (∀ (idx : Dict) (U : Finset Int) (a b : String), IsTermToken a →
      b ≠ "and" ∧ b ≠ "or" → orV (mkParser [a, b] idx U) = idx.getD a) ∧
    (∀ (idx : Dict) (U : Finset Int) (ts : List String),
      orV (mkParser (")" :: ts) idx U) = ∅) := by
  refine ⟨fun st => rfl, ?_, ?_⟩
  · intro idx U a b ha hb
    exact parse_term_term idx U a b ha hb
  · intro idx U ts
    exact parse_leading_close idx U ts

theorem C9_first_orexpr_witness :
    (IsTermToken ("x") ∧ ("y" ≠ "and" ∧ "y" ≠ "or")) ∧
    orV (mkParser ["x", "y"] (Dict.empty.add ("x") 1) ∅) =
      (Dict.empty.add ("x") 1).getD ("x") :=
  ⟨⟨by decide, by decide, by decide⟩,
    C9_first_orexpr.2.1 (Dict.empty.add ("x") 1) ∅ ("x") ("y") (by decide) (by decide)⟩

/-- C10: `boolean_search` terminates and returns a DocId set for every
query string: the parse position never decreases across any parse call,
each AND/OR loop iteration consumes at least one token, and the search of
any query produces a result. -/
theorem C10_termination :
    (∀ st : QPState, st.pos ≤ (primS st).pos ∧ st.pos ≤ (andS st).pos ∧
      st.pos ≤ (orS st).pos) ∧
    (∀ (st : QPState) (left : Finset Int), st.peek = some ("and") →
      st.pos + 1 ≤ (andLoopS st left).pos) ∧
    (∀ (st : QPState) (left : Finset Int), st.peek = some ("or") →
      st.pos + 1 ≤ (orLoopS st left).pos) ∧
    (∀ (q : String) (idx : Dict) (U : Finset Int), ∃ r, boolean_search q idx U = r) := by
  refine ⟨?_, ?_, ?_, ?_⟩
  · intro st
    exact ⟨(primS_preserves st).2.2.2, (andS_preserves st).2.2.2, (orS_preserves st).2.2.2⟩
  · intro st left h
    rw [(andLoop_eq_top h).2]
    have h1 : st.consume.pos ≤ (primS st.consume).pos := (primS_preserves st.consume).2.2.2
    have h2 : (primS st.consume).pos ≤
        (andLoopS (primS st.consume) (left ∩ primV st.consume)).pos :=
      (andLoopS_preserves (primS st.consume) (left ∩ primV st.consume)).2.2.2
    have h3 := st.consume_pos_of_peek h
    omega
  · intro st left h
    rw [(orLoop_eq_top h).2]
    have h1 : st.consume.pos ≤ (andS st.consume).pos := (andS_preserves st.consume).2.2.2
    have h2 : (andS st.consume).pos ≤
        (orLoopS (andS st.consume) (left ∪ andV st.consume)).pos :=
      (orLoopS_preserves (andS st.consume) (left ∪ andV st.consume)).2.2.2
    have h3 := st.consume_pos_of_peek h
    omega
  · intro q idx U
    exact ⟨boolean_search q idx U, rfl⟩

theorem C10_termination_witness :
    ((mkParser ["and", "x"] Dict.empty ∅).peek = some ("and")) ∧
    (mkParser ["and", "x"] Dict.empty ∅).pos + 1 ≤
      (andLoopS (mkParser ["and", "x"] Dict.empty ∅) ∅).pos :=
  ⟨by decide, C10_termination.2.1 (mkParser ["and", "x"] Dict.empty ∅) ∅ (by decide)⟩

/-- C2 (counterexample): the tokenizer splits the hyphenated token
`not-found` into the operator `not` plus the remainder Term `-found`,
because `-` is a non-word character and `\b` matches at the `t`/`-`
boundary; the claim says such a run always stays one Term. -/
theorem C2_counterexample :
    tokenize_query ("not-found") = ["not", "-found"] ∧
      tokenize_query ("not-found") ≠ ["not-found"] := by
  constructor
  · decide
  · decide

/-- C2 (amended): `AND`/`OR`/`NOT` are recognized case-insensitively at
regex `\b` word boundaries; a maximal run of ASCII *word* characters
(letters, digits, underscore) that is not itself an operator word is
emitted as one single lower-cased Term — never split — and operators
surrounded by whitespace are recognized.  A run containing characters
outside the `\w` class (`-`, an em dash, …) places a `\b` boundary inside
the run and can be split, as the counterexample shows. -/
theorem C2_tokenizer_amended :
    (∀ A : String, IsAsciiWord A → tokenize_query A = [strLower A]) ∧
    (∀ A B : String, IsAsciiWord A → IsAsciiWord B →
      tokenize_query (A ++ " AND " ++ B) = [strLower A, "and", strLower B] ∧
      tokenize_query (A ++ " OR " ++ B) = [strLower A, "or", strLower B] ∧
      tokenize_query ("NOT " ++ A) = ["not", strLower A]) := by
  refine ⟨fun A hA => tokenize_plain hA.plain, fun A B hA hB => ?_⟩
  exact ⟨tokenize_and_pair hA.plain hB.plain, tokenize_or_pair hA.plain hB.plain,
    tokenize_not_prefix hA.plain⟩

theorem C2_tokenizer_amended_witness :
    IsAsciiWord ("android") ∧ tokenize_query ("android") = [strLower ("android")] :=
  ⟨by decide, C2_tokenizer_amended.1 ("android") (by decide)⟩

/-- The three-lemma index used by the C1 counterexample:
`x ↦ {1}`, `y ↦ {2}`, `z ↦ {3}`. -/
def exIndex : Dict := ((Dict.empty.add ("x") 1).add ("y") 2).add ("z") 3

theorem boolean_search_xORyANDz :
    boolean_search ("x OR y" ++ " AND " ++ "z") exIndex {1, 2, 3} = {1} := by
  rw [boolean_search]
  rw [show tokenize_query ("x OR y" ++ " AND " ++ "z") = ["x", "or", "y", "and", "z"]
    from by decide]
  rw [if_neg (by decide)]
  show orV (mkParser ["x", "or", "y", "and", "z"] exIndex {1, 2, 3}) = {1}
  set ts : List String := ["x", "or", "y", "and", "z"] with hts
  set st0 : QPState := mkParser ts exIndex {1, 2, 3} with hst0
  have p0 : st0.peek = some ("x") := rfl
  have c0 : st0.consume = ⟨ts, 1, exIndex, {1, 2, 3}⟩ := rfl
  have p1 : (⟨ts, 1, exIndex, {1, 2, 3}⟩ : QPState).peek = some ("or") := rfl
  have c1 : (⟨ts, 1, exIndex, {1, 2, 3}⟩ : QPState).consume = ⟨ts, 2, exIndex, {1, 2, 3}⟩ := rfl
  have p2 : (⟨ts, 2, exIndex, {1, 2, 3}⟩ : QPState).peek = some ("y") := rfl
  have c2 : (⟨ts, 2, exIndex, {1, 2, 3}⟩ : QPState).consume = ⟨ts, 3, exIndex, {1, 2, 3}⟩ := rfl
  have p3 : (⟨ts, 3, exIndex, {1, 2, 3}⟩ : QPState).peek = some ("and") := rfl
  have c3 : (⟨ts, 3, exIndex, {1, 2, 3}⟩ : QPState).consume = ⟨ts, 4, exIndex, {1, 2, 3}⟩ := rfl
  have p4 : (⟨ts, 4, exIndex, {1, 2, 3}⟩ : QPState).peek = some ("z") := rfl
  have c4 : (⟨ts, 4, exIndex, {1, 2, 3}⟩ : QPState).consume = ⟨ts, 5, exIndex, {1, 2, 3}⟩ := rfl
  have p5 : (⟨ts, 5, exIndex, {1, 2, 3}⟩ : QPState).peek = none := rfl
  have hx := prim_eq_term p0 (by decide) (by decide) (by decide) (by decide) (by decide)
  have hy := prim_eq_term p2 (by decide) (by decide) (by decide) (by decide) (by decide)
  have hz := prim_eq_term p4 (by decide) (by decide) (by decide) (by decide) (by decide)
  rw [(or_eq st0).1, (and_eq st0).1, (and_eq st0).2, hx.1, hx.2, c0]
  rw [(andLoop_eq_exit (by rw [p1]; intro h; injection h; simp_all)).1,
      (andLoop_eq_exit (by rw [p1]; intro h; injection h; simp_all)).2]
  rw [(orLoop_eq_top p1).1, c1]
  rw [(and_eq (⟨ts, 2, exIndex, {1, 2, 3}⟩ : QPState)).1,
      (and_eq (⟨ts, 2, exIndex, {1, 2, 3}⟩ : QPState)).2]
  rw [hy.1, hy.2, c2]
  rw [(andLoop_eq_top p3).1, (andLoop_eq_top p3).2, c3]
  rw [hz.1, hz.2, c4]
  rw [(andLoop_eq_exit (by rw [p5]; intro h; cases h)).1,
      (andLoop_eq_exit (by rw [p5]; intro h; cases h)).2]
  rw [(orLoop_eq_exit (by rw [p5]; intro h; cases h)).1]
  decide

/-- C1 (counterexample): with index `x ↦ {1}, y ↦ {2}, z ↦ {3}` and
universe `{1,2,3}`, take `A := "x OR y"` and `B := "z"`.  Then
`search("A AND B")` parses as `x OR (y AND z)` (AND binds tighter) and
returns `{1}`, while `search(A) ∩ search(B) = {1,2} ∩ {3} = ∅` — so
`search("A AND B") = search(A) ∩ search(B)` fails for these queries. -/
theorem C1_counterexample :
    boolean_search ("x OR y" ++ " AND " ++ "z") exIndex {1, 2, 3} = {1} ∧
    boolean_search ("x OR y") exIndex {1, 2, 3} ∩
      boolean_search ("z") exIndex {1, 2, 3} = ∅ ∧
    boolean_search ("x OR y" ++ " AND " ++ "z") exIndex {1, 2, 3} ≠
      boolean_search ("x OR y") exIndex {1, 2, 3} ∩
        boolean_search ("z") exIndex {1, 2, 3} := by
  have h1 := boolean_search_xORyANDz
  have h2 : boolean_search ("x OR y") exIndex {1, 2, 3} = {1, 2} := by
    rw [boolean_search]
    rw [show tokenize_query ("x OR y") = ["x", "or", "y"] from by decide]
    rw [if_neg (by decide)]
    show orV (mkParser ["x", "or", "y"] exIndex {1, 2, 3}) = {1, 2}
    rw [parse_term_or_term exIndex {1, 2, 3} ("x") ("y") (by decide) (by decide)]
    decide
  have h3 : boolean_search ("z") exIndex {1, 2, 3} = {3} := by
    rw [boolean_search_plain exIndex {1, 2, 3} ("z") (by decide)]
    decide
  refine ⟨h1, ?_, ?_⟩
  · rw [h2, h3]
    decide
  · rw [h1, h2, h3]
    decide

/-- C1 (amended): the set-algebra identities hold when `A` and `B` are
single plain ASCII term words (non-empty runs of ASCII word characters
that are not themselves operator keywords); for arbitrary sub-queries
they fail because `AND` binds tighter than `OR` (see the
counterexample). -/
theorem C1_set_algebra_amended :
    ∀ (idx : Dict) (U : Finset Int) (A B : String), IsAsciiWord A → IsAsciiWord B →
      boolean_search (A ++ " AND " ++ B) idx U =
        boolean_search A idx U ∩ boolean_search B idx U ∧
      boolean_search (A ++ " OR " ++ B) idx U =
        boolean_search A idx U ∪ boolean_search B idx U ∧
      boolean_search ("NOT " ++ A) idx U = U \ boolean_search A idx U := by
  intro idx U A B hA hB
  rw [boolean_search_plain idx U A hA.plain, boolean_search_plain idx U B hB.plain]
  refine ⟨?_, ?_, ?_⟩
  · rw [boolean_search, tokenize_and_pair hA.plain hB.plain, if_neg (by simp)]
    exact parse_term_and_term idx U (strLower A) (strLower B)
      hA.plain.not_op hB.plain.not_op
  · rw [boolean_search, tokenize_or_pair hA.plain hB.plain, if_neg (by simp)]
    exact parse_term_or_term idx U (strLower A) (strLower B)
      hA.plain.not_op hB.plain.not_op
  · rw [boolean_search, tokenize_not_prefix hA.plain, if_neg (by simp)]
    exact parse_not_term idx U (strLower A) hA.plain.not_op

theorem C1_set_algebra_amended_witness :
    (IsAsciiWord ("cat") ∧ IsAsciiWord ("dog")) ∧
    (boolean_search ("cat" ++ " AND " ++ "dog") exIndex {1, 2, 3} =
        boolean_search ("cat") exIndex {1, 2, 3} ∩ boolean_search ("dog") exIndex {1, 2, 3} ∧
      boolean_search ("cat" ++ " OR " ++ "dog") exIndex {1, 2, 3} =
        boolean_search ("cat") exIndex {1, 2, 3} ∪ boolean_search ("dog") exIndex {1, 2, 3} ∧
      boolean_search ("NOT " ++ "cat") exIndex {1, 2, 3} =
        {1, 2, 3} \ boolean_search ("cat") exIndex {1, 2, 3}) :=
  ⟨⟨by decide, by decide⟩,
    C1_set_algebra_amended exIndex {1, 2, 3} ("cat") ("dog") (by decide) (by decide)⟩

/-! ### C3: loader error behavior -/

/-- Occurrence of `p` as a contiguous run inside `l`. -/
def subOccurs (p : List Char) : List Char → Bool
  | [] => p.isEmpty
  | c :: t => p.isPrefixOf (c :: t) || subOccurs p t

/-- Substring test on strings (`sub` occurs in `s`). -/
def strContainsSub (s sub : String) : Bool := subOccurs sub.data s.data

/-- The error component of a load result, if any. -/
def loadErr : Except PyErr Dict → Option PyErr
  | .error e => some e
  | .ok _ => none

/-- A persisted-index line with a posting field that `int()` rejects. -/
def lineHasBadField (line : String) : Bool :=
  match pySplit (pyStrip line) with
  | [] => false
  | _ :: fields => fields.any fun f => (pyParseInt f).isNone

theorem parseFields_error {fields : List String}
    (h : (fields.any fun f => (pyParseInt f).isNone) = true) :
    ∃ f, parseFields fields = .error (.valueError f) ∧ pyParseInt f = none := by
  induction fields with
  | nil => simp at h
  | cons f fs ih =>
    rcases hp : pyParseInt f with _ | i
    · exact ⟨f, by rw [parseFields, hp], hp⟩
    · have h' : (fs.any fun g => (pyParseInt g).isNone) = true := by
        simp only [List.any_cons, hp, Option.isNone_some, Bool.false_or] at h
        exact h
      obtain ⟨g, hg, hgn⟩ := ih h'
      refine ⟨g, ?_, hgn⟩
      rw [parseFields, hp, hg]

theorem parseFields_ok {fields : List String}
    (h : (fields.any fun f => (pyParseInt f).isNone) = false) :
    ∃ s, parseFields fields = .ok s := by
  induction fields with
  | nil => exact ⟨∅, rfl⟩
  | cons f fs ih =>
    rcases hp : pyParseInt f with _ | i
    · exfalso
      rw [List.any_cons, hp] at h
      simp at h
    · have h2 : (fs.any fun g => (pyParseInt g).isNone) = false := by
        rw [List.any_cons, hp] at h
        simpa using h
      obtain ⟨s, hs⟩ := ih h2
      exact ⟨insert i s, by rw [parseFields, hp, hs]⟩

theorem load_bad_field_fails :
    ∀ (lines : List String) (d : Dict), (∃ line ∈ lines, lineHasBadField line = true) →
      ∃ f, loadErr (load_inverted_index d lines) = some (.valueError f) ∧
        pyParseInt f = none := by
  intro lines
  induction lines with
  | nil =>
    intro d h
    obtain ⟨line, hmem, _⟩ := h
    cases hmem
  | cons line rest ih =>
    intro d h
    by_cases hs : pyStrip line = ""
    · have hskip : load_inverted_index d (line :: rest) = load_inverted_index d rest := by
        conv_lhs => rw [load_inverted_index]
        rw [if_pos hs]
      rw [hskip]
      apply ih
      obtain ⟨l, hmem, hbad⟩ := h
      rcases List.mem_cons.mp hmem with heq | hmem
      · exfalso
        subst heq
        rw [lineHasBadField, hs] at hbad
        simp [pySplit, pySplitList, pySplitAux] at hbad
      · exact ⟨l, hmem, hbad⟩
    · rcases hsp : pySplit (pyStrip line) with _ | ⟨t, fields⟩
      · have hskip : load_inverted_index d (line :: rest) = load_inverted_index d rest := by
          conv_lhs => rw [load_inverted_index]
          rw [if_neg hs, hsp]
        rw [hskip]
        apply ih
        obtain ⟨l, hmem, hbad⟩ := h
        rcases List.mem_cons.mp hmem with heq | hmem
        · exfalso
          subst heq
          rw [lineHasBadField, hsp] at hbad
          cases hbad
        · exact ⟨l, hmem, hbad⟩
      · by_cases hany : (fields.any fun f => (pyParseInt f).isNone) = true
        · obtain ⟨f, hf, hfn⟩ := parseFields_error hany
          refine ⟨f, ?_, hfn⟩
          conv_lhs => rw [load_inverted_index]
          rw [if_neg hs, hsp]
          dsimp only
          rw [hf]
          rfl
        · obtain ⟨s, hsok⟩ := parseFields_ok (by simpa using hany)
          have hstep : load_inverted_index d (line :: rest) =
              load_inverted_index (d.set (strLower t) s) rest := by
            conv_lhs => rw [load_inverted_index]
            rw [if_neg hs, hsp]
            dsimp only
            rw [hsok]
          rw [hstep]
          apply ih
          obtain ⟨l, hmem, hbad⟩ := h
          rcases List.mem_cons.mp hmem with heq | hmem
          · exfalso
            subst heq
            rw [lineHasBadField, hsp] at hbad
            dsimp only at hbad
            exact hany hbad
          · exact ⟨l, hmem, hbad⟩

/-- C3 (counterexample): on a persisted index whose second line carries
the non-integer field `x`, loading fails with the bare `ValueError` of
`int("x")`; the exception names only the offending literal — its message
contains neither the index file's name nor the line number 2. -/
theorem C3_counterexample :
    loadErr (loadIndex ["cat 3", "dog x"]) = some (.valueError ("x")) ∧
    strContainsSub (PyErr.message (.valueError ("x"))) ("inverted_index.txt") = false ∧
    strContainsSub (PyErr.message (.valueError ("x"))) ("2") = false ∧
    PyErr.message (.valueError ("x")) = "invalid literal for int() with base 10: x" := by
  refine ⟨by decide, by decide, by decide, rfl⟩

/-- The ASCII characters Python's `str.split()` (and `str.strip()`)
treat as whitespace: `\t \n \v \f \r`, the file/group/record/unit
separators `\x1c`–`\x1f`, and the space. -/
def pySpaceAscii (c : Char) : Bool :=
  (decide (9 ≤ c.toNat) && decide (c.toNat ≤ 13)) ||
    (decide (28 ≤ c.toNat) && decide (c.toNat ≤ 31)) || c == ' '

/-- An ASCII character no production of CPython's `int()` grammar can
consume and no `str.split()` boundary can remove: not a digit, not a
sign, not an underscore (Python accepts underscore digit grouping), not
Python whitespace.  A field containing such a character makes the real
`int()` raise; restricting the loader-error hypothesis to these
characters keeps the modelled failure condition inside the program's,
even though `pyParseInt` and the model's whitespace class are narrower
than Python's. -/
def hardBadChar (c : Char) : Bool :=
  decide (c.toNat < 128) && !c.isDigit && c != '+' && c != '-' && c != '_' &&
    !pySpaceAscii c

/-- All the characters Python's `str.split()`/`str.strip()` treat as
whitespace (CPython's `Py_UNICODE_ISSPACE` table): the ASCII set above
plus NEL, NBSP, and the Unicode space separators. -/
def pySpaceUni (c : Char) : Bool :=
  pySpaceAscii c || c.toNat == 133 || c.toNat == 160 || c.toNat == 5760 ||
    (decide (8192 ≤ c.toNat) && decide (c.toNat ≤ 8202)) ||
    c.toNat == 8232 || c.toNat == 8233 || c.toNat == 8239 || c.toNat == 8287 ||
    c.toNat == 12288

/-- Every whitespace character of the line is one the model's
`Char.isWhitespace` also covers: on such lines the embedded `strip` and
`split` agree with Python's exactly, so the model's fields are the
program's fields. -/
def wsExact (line : String) : Bool :=
  line.data.all fun c => !pySpaceUni c || c.isWhitespace

/-- A posting field the loader certainly rejects. -/
def fieldHardBad (f : String) : Bool := f.data.any hardBadChar

/-- A persisted-index line with a posting field the loader certainly
rejects. -/
def lineHasHardBadField (line : String) : Bool :=
  match pySplit (pyStrip line) with
  | [] => false
  | _ :: fields => fields.any fieldHardBad

theorem hardBadChar_parts {c : Char} (h : hardBadChar c = true) :
    c.isDigit = false ∧ c ≠ '+' ∧ c ≠ '-' := by
  rw [hardBadChar] at h
  simp only [Bool.and_eq_true, Bool.not_eq_true', bne_iff_ne, ne_eq,
    decide_eq_true_eq] at h
  exact ⟨h.1.1.1.1.2, h.1.1.1.2, h.1.1.2⟩

theorem digitsVal_none_of_nondigit {cs : List Char} {c : Char} (hc : c ∈ cs)
    (hd : c.isDigit = false) : digitsVal cs = none := by
  have hne : cs ≠ [] := by
    intro h
    subst h
    cases hc
  have hall : cs.all Char.isDigit = false := by
    cases hall : cs.all Char.isDigit
    · rfl
    · exact absurd (List.all_eq_true.mp hall c hc) (by rw [hd]; exact Bool.false_ne_true)
  rw [digitsVal, if_neg hne, if_neg (by intro hcon; rw [hcon] at hall; cases hall)]

/-- A field with a hard-bad character fails the model's `int()` too. -/
theorem pyParseInt_none_of_hard {f : String} (h : fieldHardBad f = true) :
    pyParseInt f = none := by
  rw [fieldHardBad, List.any_eq_true] at h
  obtain ⟨c, hc, hbad⟩ := h
  obtain ⟨hdig, hplus, hminus⟩ := hardBadChar_parts hbad
  rcases hd : f.data with _ | ⟨c0, cs⟩
  · rw [hd] at hc
    cases hc
  · rw [hd] at hc
    rw [pyParseInt, hd]
    dsimp only
    by_cases h0 : c0 = '-'
    · rw [if_pos h0]
      have hcs : c ∈ cs := by
        rcases List.mem_cons.mp hc with rfl | h2
        · exact absurd h0 hminus
        · exact h2
      rw [digitsVal_none_of_nondigit hcs hdig]
      rfl
    · by_cases h1 : c0 = '+'
      · rw [if_neg h0, if_pos h1]
        have hcs : c ∈ cs := by
          rcases List.mem_cons.mp hc with rfl | h2
          · exact absurd h1 hplus
          · exact h2
        rw [digitsVal_none_of_nondigit hcs hdig]
        rfl
      · rw [if_neg h0, if_neg h1, digitsVal_none_of_nondigit hc hdig]
        rfl

theorem lineHard_bad {line : String} (h : lineHasHardBadField line = true) :
    lineHasBadField line = true := by
  rw [lineHasHardBadField] at h
  rw [lineHasBadField]
  rcases hsp : pySplit (pyStrip line) with _ | ⟨t, fields⟩
  · rw [hsp] at h
    cases h
  · rw [hsp] at h
    dsimp only at h ⊢
    rw [List.any_eq_true] at h ⊢
    obtain ⟨f, hf, hfb⟩ := h
    exact ⟨f, hf, by rw [pyParseInt_none_of_hard hfb]; rfl⟩

/-- C3 (amended): when a line whose whitespace the model reads exactly
has a posting field containing a character `int()` can never accept — an
ASCII character that is not a digit, a sign, an underscore or whitespace
— loading aborts with the `ValueError` of some offending field: an error
value that identifies the literal but not the file or the line. -/
theorem C3_load_error_amended :
    ∀ lines : List String,
      (∃ line ∈ lines, wsExact line = true ∧ lineHasHardBadField line = true) →
      ∃ f, loadErr (loadIndex lines) = some (.valueError f) ∧ pyParseInt f = none := by
  intro lines h
  obtain ⟨line, hmem, _, hbad⟩ := h
  exact load_bad_field_fails lines Dict.empty ⟨line, hmem, lineHard_bad hbad⟩

theorem C3_load_error_amended_witness :
    (∃ line ∈ (["dog x"] : List String),
      wsExact line = true ∧ lineHasHardBadField line = true) ∧
    (∃ f, loadErr (loadIndex ["dog x"]) = some (.valueError f) ∧ pyParseInt f = none) :=
  ⟨by decide, C3_load_error_amended ["dog x"] (by decide)⟩

/-! ### C4: `load(build(S))` round-trip -/

/-- Recursive decimal digit writer (proof-side twin of `natDigitsAux`,
recursing on the value instead of on fuel). -/
def natDigitsRec (n : Nat) : List Char :=
  if h : n < 10 then [Char.ofNat (48 + n)]
  else natDigitsRec (n / 10) ++ [Char.ofNat (48 + n % 10)]
decreasing_by exact Nat.div_lt_self (by omega) (by omega)

theorem natDigitsAux_eq :
    ∀ (fuel n : Nat) (acc : List Char), n < fuel →
      natDigitsAux fuel n acc = natDigitsRec n ++ acc := by
  intro fuel
  induction fuel with
  | zero => intro n acc h; omega
  | succ f ih =>
    intro n acc h
    by_cases h10 : n < 10
    · rw [natDigitsAux, if_pos h10, natDigitsRec, dif_pos h10]
      rfl
    · rw [natDigitsAux, if_neg h10, ih (n / 10) _ (by omega)]
      conv_rhs => rw [natDigitsRec, dif_neg h10]
      rw [List.append_assoc]
      rfl

theorem natDigits_eq (n : Nat) : natDigits n = natDigitsRec n := by
  rw [natDigits, natDigitsAux_eq (n + 1) n [] (Nat.lt_succ_self n), List.append_nil]

theorem natDigitsRec_ne_nil (n : Nat) : natDigitsRec n ≠ [] := by
  rw [natDigitsRec]
  split
  · simp
  · simp

theorem natDigitsRec_mem {n : Nat} {c : Char} (h : c ∈ natDigitsRec n) :
    ∃ d, d < 10 ∧ c = Char.ofNat (48 + d) := by
  induction n using Nat.strong_induction_on with
  | _ n ih =>
    rw [natDigitsRec] at h
    split at h
    · rename_i h10
      rw [List.mem_singleton] at h
      exact ⟨n, h10, h⟩
    · rename_i h10
      rcases List.mem_append.mp h with h1 | h2
      · exact ih (n / 10) (Nat.div_lt_self (by omega) (by omega)) h1
      · rw [List.mem_singleton] at h2
        exact ⟨n % 10, Nat.mod_lt n (by omega), h2⟩

theorem digitCharVal {d : Nat} (h : d < 10) : (Char.ofNat (48 + d)).toNat = 48 + d :=
  charOfNatVal (Or.inl (by omega))

/-- An ASCII digit character passes `int()`'s digit test, is not
whitespace, and is not a sign character. -/
theorem digitChar_props {d : Nat} (h : d < 10) :
    (Char.ofNat (48 + d)).isDigit = true ∧ (Char.ofNat (48 + d)).isWhitespace = false ∧
      Char.ofNat (48 + d) ≠ '-' ∧ Char.ofNat (48 + d) ≠ '+' := by
  interval_cases d <;> exact ⟨by decide, by decide, by decide, by decide⟩

theorem natDigitsRec_foldl :
    ∀ n k, (natDigitsRec n).foldl (fun a c => a * 10 + (c.toNat - 48)) k =
      k * 10 ^ (natDigitsRec n).length + n := by
  intro n
  induction n using Nat.strong_induction_on with
  | _ n ih =>
    intro k
    rw [natDigitsRec]
    split
    · rename_i h10
      simp only [List.foldl_cons, List.foldl_nil, List.length_singleton, pow_one,
        digitCharVal h10]
      omega
    · rename_i h10
      rw [List.foldl_append, ih (n / 10) (Nat.div_lt_self (by omega) (by omega)) k]
      simp only [List.foldl_cons, List.foldl_nil, List.length_append, List.length_singleton]
      rw [digitCharVal (Nat.mod_lt n (by omega))]
      have hmod : 48 + n % 10 - 48 = n % 10 := by omega
      have key : n / 10 * 10 + n % 10 = n := by omega
      rw [hmod, pow_succ]
      calc (k * 10 ^ (natDigitsRec (n / 10)).length + n / 10) * 10 + n % 10
          = k * (10 ^ (natDigitsRec (n / 10)).length * 10) + (n / 10 * 10 + n % 10) := by
            ring
        _ = k * (10 ^ (natDigitsRec (n / 10)).length * 10) + n := by rw [key]

theorem digitsVal_natDigitsRec (n : Nat) : digitsVal (natDigitsRec n) = some n := by
  have hall : (natDigitsRec n).all Char.isDigit = true := by
    rw [List.all_eq_true]
    intro c hc
    obtain ⟨d, hd, rfl⟩ := natDigitsRec_mem hc
    exact (digitChar_props hd).1
  rw [digitsVal, if_neg (natDigitsRec_ne_nil n), if_pos hall, natDigitsRec_foldl n 0]
  simp

/-- `int(str(i)) = i`. -/
theorem pyParseInt_intStr (i : Int) : pyParseInt (intStr i) = some i := by
  cases i with
  | ofNat n =>
    simp only [intStr]
    rw [natDigits_eq]
    rcases hnd : natDigitsRec n with _ | ⟨c, cs⟩
    · exact absurd hnd (natDigitsRec_ne_nil n)
    · have hc : c ∈ natDigitsRec n := by rw [hnd]; exact List.mem_cons_self c cs
      obtain ⟨d, hd, hcd⟩ := natDigitsRec_mem hc
      simp only [pyParseInt]
      rw [if_neg (by rw [hcd]; exact (digitChar_props hd).2.2.1),
        if_neg (by rw [hcd]; exact (digitChar_props hd).2.2.2),
        ← hnd, digitsVal_natDigitsRec]
      rfl
  | negSucc n =>
    simp only [intStr, pyParseInt]
    rw [natDigits_eq, digitsVal_natDigitsRec]
    show some (-(((n + 1 : Nat) : Int))) = some (Int.negSucc n)
    congr 1

/-- Parsing back the rendered posting fields of a list of ids. -/
theorem parseFields_intStr : ∀ l : List Int, parseFields (l.map intStr) = .ok l.toFinset := by
  intro l
  induction l with
  | nil => rfl
  | cons i t ih =>
    rw [List.map_cons, parseFields, pyParseInt_intStr, ih]
    simp [List.toFinset_cons]

theorem strMk_data : ∀ s : String, String.mk s.data = s
  | ⟨_⟩ => rfl

theorem map_mk_data : ∀ fs : List String, (fs.map String.data).map String.mk = fs := by
  intro fs
  induction fs with
  | nil => rfl
  | cons f t ih => rw [List.map_cons, List.map_cons, strMk_data, ih]

/-- Every field `str.split()` produces is nonempty and whitespace-free. -/
theorem pySplitAux_fields :
    ∀ (cs acc : List Char), (∀ c ∈ acc, c.isWhitespace = false) →
      ∀ f ∈ pySplitAux acc cs, f ≠ [] ∧ ∀ c ∈ f, c.isWhitespace = false := by
  intro cs
  induction cs with
  | nil =>
    intro acc hacc f hf
    rw [pySplitAux] at hf
    split at hf
    · cases hf
    · rename_i hne
      rw [List.mem_singleton] at hf
      subst hf
      exact ⟨by simpa using hne, fun c hc => hacc c (List.mem_reverse.mp hc)⟩
  | cons c cs ih =>
    intro acc hacc f hf
    rw [pySplitAux] at hf
    split at hf
    · split at hf
      · exact ih [] (by simp) f hf
      · rename_i hne
        rcases List.mem_cons.mp hf with rfl | hf2
        · exact ⟨by simpa using hne, fun x hx => hacc x (List.mem_reverse.mp hx)⟩
        · exact ih [] (by simp) f hf2
    · rename_i hws
      refine ih (c :: acc) ?_ f hf
      intro x hx
      rcases List.mem_cons.mp hx with rfl | hx2
      · simpa using hws
      · exact hacc x hx2

/-- The scanner moves a whole whitespace-free run into the accumulator. -/
theorem pySplitAux_word :
    ∀ (w : List Char), (∀ c ∈ w, c.isWhitespace = false) →
      ∀ (rest acc : List Char), pySplitAux acc (w ++ rest) = pySplitAux (w.reverse ++ acc) rest := by
  intro w
  induction w with
  | nil => intro _ rest acc; simp
  | cons c w ih =>
    intro hw rest acc
    rw [List.cons_append, pySplitAux,
      if_neg (by simp [hw c (List.mem_cons_self c w)]),
      ih (fun x hx => hw x (List.mem_cons_of_mem c hx)) rest (c :: acc)]
    simp [List.append_assoc]

/-- A space flushes a nonempty accumulator as one field. -/
theorem pySplitAux_space (rest acc : List Char) (hacc : acc ≠ []) :
    pySplitAux acc (' ' :: rest) = acc.reverse :: pySplitAux [] rest := by
  rw [pySplitAux, if_pos (by decide), if_neg hacc]

/-- Splitting the space-joined rendering of nonempty whitespace-free
fields recovers exactly those fields. -/
theorem joinSp_split :
    ∀ (fs : List String), fs ≠ [] →
      (∀ f ∈ fs, f.data ≠ [] ∧ ∀ c ∈ f.data, c.isWhitespace = false) →
      pySplitList (joinSp fs).data = fs.map String.data := by
  intro fs
  induction fs with
  | nil => intro h; exact absurd rfl h
  | cons f fs ih =>
    intro _ hprops
    have hf := hprops f (List.mem_cons_self f fs)
    rcases fs with _ | ⟨g, gs⟩
    · show pySplitList f.data = [f.data]
      have h := pySplitAux_word f.data hf.2 [] []
      rw [List.append_nil] at h
      rw [pySplitList, h, pySplitAux, if_neg (by simp [hf.1])]
      simp
    · show pySplitList (f ++ " " ++ joinSp (g :: gs)).data = _
      have hdata : (f ++ " " ++ joinSp (g :: gs)).data =
          f.data ++ (' ' :: (joinSp (g :: gs)).data) := by
        simp [String.data_append]
      rw [pySplitList, hdata, pySplitAux_word f.data hf.2 _ [], List.append_nil,
        pySplitAux_space _ _ (by simpa using hf.1), List.reverse_reverse]
      have hrest : pySplitAux [] (joinSp (g :: gs)).data = (g :: gs).map String.data :=
        ih (by simp) (fun x hx => hprops x (List.mem_cons_of_mem f hx))
      rw [hrest]
      rfl

/-- The last character of a space-joined list of nonempty
whitespace-free fields is not whitespace. -/
theorem joinSp_last_not_ws :
    ∀ fs : List String, fs ≠ [] →
      (∀ f ∈ fs, f.data ≠ [] ∧ ∀ c ∈ f.data, c.isWhitespace = false) →
      ∀ c, (joinSp fs).data.getLast? = some c → c.isWhitespace = false := by
  intro fs
  induction fs with
  | nil => intro h; exact absurd rfl h
  | cons f fs ih =>
    intro _ hprops c hc
    have hf := hprops f (List.mem_cons_self f fs)
    rcases fs with _ | ⟨g, gs⟩
    · exact hf.2 c (List.mem_of_mem_getLast? hc)
    · have hdata : (f ++ " " ++ joinSp (g :: gs)).data =
          f.data ++ (' ' :: (joinSp (g :: gs)).data) := by
        simp [String.data_append]
      have hjne : (joinSp (g :: gs)).data ≠ [] := by
        intro hnil
        have := joinSp_split (g :: gs) (by simp)
          (fun x hx => hprops x (List.mem_cons_of_mem f hx))
        rw [hnil] at this
        have hg := hprops g (List.mem_cons_of_mem f (List.mem_cons_self g gs))
        rw [pySplitList, pySplitAux] at this
        simp at this
      have hlast : (' ' :: (joinSp (g :: gs)).data).getLast? =
          (joinSp (g :: gs)).data.getLast? := by
        rw [show (' ' :: (joinSp (g :: gs)).data) = [' '] ++ (joinSp (g :: gs)).data from rfl,
          List.getLast?_append]
        rcases hglj : (joinSp (g :: gs)).data.getLast? with _ | e
        · rw [List.getLast?_eq_none_iff] at hglj
          exact absurd hglj hjne
        · rfl
      rw [show joinSp (f :: g :: gs) = f ++ " " ++ joinSp (g :: gs) from rfl, hdata,
        List.getLast?_append, hlast] at hc
      rcases hglj : (joinSp (g :: gs)).data.getLast? with _ | e
      · rw [List.getLast?_eq_none_iff] at hglj
        exact absurd hglj hjne
      · rw [hglj] at hc
        have hc2 : some e = some c := hc
        injection hc2 with hc2
        subst hc2
        exact ih (by simp) (fun x hx => hprops x (List.mem_cons_of_mem f hx)) _ hglj

/-- The printable ASCII range from `+` to `z` holds no whitespace. -/
theorem not_ws_of_range {c : Char} (h1 : 43 ≤ c.toNat) (h2 : c.toNat ≤ 122) :
    c.isWhitespace = false := by
  cases hws : c.isWhitespace
  · rfl
  · exfalso
    have hc : ((c = ' ' ∨ c = '\t') ∨ c = '\x0d') ∨ c = '\n' := by
      simpa [Char.isWhitespace, decide_eq_true_eq] using hws
    rcases hc with ((hc | hc) | hc) | hc <;> subst hc <;> exact absurd h1 (by decide)

theorem toLower_toLower (c : Char) : c.toLower.toLower = c.toLower := by
  unfold Char.toLower
  simp only []
  split
  · rename_i hr
    rw [if_neg]
    rw [charOfNatVal (Or.inl (by omega))]
    omega
  · rfl

theorem toLower_not_ws {c : Char} (h : c.isWhitespace = false) :
    c.toLower.isWhitespace = false := by
  unfold Char.toLower
  simp only []
  split
  · rename_i hr
    apply not_ws_of_range
    · rw [charOfNatVal (Or.inl (by omega))]; omega
    · rw [charOfNatVal (Or.inl (by omega))]; omega
  · exact h

theorem strLower_data (s : String) : (strLower s).data = s.data.map Char.toLower := rfl

theorem strLower_ne_nil {s : String} (h : s.data ≠ []) : (strLower s).data ≠ [] := by
  rw [strLower_data]
  simpa using h

theorem strLower_not_ws {s : String} (h : ∀ c ∈ s.data, c.isWhitespace = false) :
    ∀ c ∈ (strLower s).data, c.isWhitespace = false := by
  intro c hc
  rw [strLower_data, List.mem_map] at hc
  obtain ⟨a, ha, rfl⟩ := hc
  exact toLower_not_ws (h a ha)

theorem strLower_idem (s : String) : strLower (strLower s) = strLower s := by
  show String.mk (((s.data.map Char.toLower)).map Char.toLower) = String.mk (s.data.map Char.toLower)
  congr 1
  rw [List.map_map]
  exact List.map_congr_left fun a _ => toLower_toLower a

/-- `getLast?` skips past a prepended element when the tail is nonempty. -/
theorem getLast_cons_ne {a : Char} {l : List Char} (h : l ≠ []) :
    (a :: l).getLast? = l.getLast? := by
  rw [show a :: l = [a] ++ l from rfl, List.getLast?_append]
  rcases hgl : l.getLast? with _ | e
  · exact absurd (List.getLast?_eq_none_iff.mp hgl) h
  · rfl

theorem joinSp_data_ne_nil (fs : List String) (hne : fs ≠ [])
    (hprops : ∀ f ∈ fs, f.data ≠ []) : (joinSp fs).data ≠ [] := by
  rcases fs with _ | ⟨f, rest⟩
  · exact absurd rfl hne
  · rcases rest with _ | ⟨g, gs⟩
    · exact hprops f (List.mem_cons_self f [])
    · rw [show joinSp (f :: g :: gs) = f ++ " " ++ joinSp (g :: gs) from rfl,
        String.data_append, String.data_append]
      simp

/-- Splitting one rendered index line recovers the term and the fields. -/
theorem pySplit_render {t : String} {fields : List String}
    (htne : t.data ≠ []) (htw : ∀ c ∈ t.data, c.isWhitespace = false)
    (hfs : fields ≠ [])
    (hprops : ∀ f ∈ fields, f.data ≠ [] ∧ ∀ c ∈ f.data, c.isWhitespace = false) :
    pySplit (t ++ " " ++ joinSp fields) = t :: fields := by
  have hdata : (t ++ " " ++ joinSp fields).data =
      t.data ++ (' ' :: (joinSp fields).data) := by
    simp [String.data_append]
  rw [pySplit, hdata, pySplitList, pySplitAux_word t.data htw _ [], List.append_nil,
    pySplitAux_space _ _ (by simpa using htne), List.reverse_reverse,
    show pySplitAux [] (joinSp fields).data = pySplitList (joinSp fields).data from rfl,
    joinSp_split fields hfs hprops, List.map_cons, strMk_data, map_mk_data]

/-- A rendered index line has no leading or trailing whitespace, so
`str.strip()` leaves it unchanged. -/
theorem pyStrip_render {t : String} {fields : List String}
    (htne : t.data ≠ []) (htw : ∀ c ∈ t.data, c.isWhitespace = false)
    (hfs : fields ≠ [])
    (hprops : ∀ f ∈ fields, f.data ≠ [] ∧ ∀ c ∈ f.data, c.isWhitespace = false) :
    pyStrip (t ++ " " ++ joinSp fields) = t ++ " " ++ joinSp fields := by
  have hdata : (t ++ " " ++ joinSp fields).data =
      t.data ++ (' ' :: (joinSp fields).data) := by
    simp [String.data_append]
  have hjne : (joinSp fields).data ≠ [] :=
    joinSp_data_ne_nil fields hfs fun f hf => (hprops f hf).1
  rw [pyStrip, hdata, pyStripList_eq_self, ← hdata, strMk_data]
  · intro c hcc
    rcases hd : t.data with _ | ⟨a, as⟩
    · exact absurd hd htne
    · rw [hd] at hcc
      simp only [List.cons_append, List.head?_cons] at hcc
      injection hcc with hcc
      subst hcc
      exact htw _ (by rw [hd]; exact List.mem_cons_self a as)
  · intro c hcc
    rw [List.getLast?_append, getLast_cons_ne hjne] at hcc
    rcases hglj : (joinSp fields).data.getLast? with _ | e
    · exact absurd (List.getLast?_eq_none_iff.mp hglj) hjne
    · rw [hglj] at hcc
      have hc2 : some e = some c := hcc
      injection hc2 with hc2
      subst hc2
      exact joinSp_last_not_ws fields hfs hprops _ hglj

/-! Dict lookup through assignment folds. -/

theorem Dict.getD_set_eq (d : Dict) (k l : String) (v : Finset Int) :
    (d.set k v).getD l = if l = k then v else d.getD l := by
  by_cases h : l = k
  · subst h
    simp [Dict.set, Dict.getD]
  · simp [Dict.set, Dict.getD, h]

theorem foldl_set_getD (v : String → Finset Int) :
    ∀ (ks : List String) (d : Dict) (l : String),
      (ks.foldl (fun d t => d.set t (v t)) d).getD l =
        if l ∈ ks then v l else d.getD l := by
  intro ks
  induction ks with
  | nil => intro d l; simp
  | cons k ks ih =>
    intro d l
    rw [List.foldl_cons, ih]
    by_cases hmem : l ∈ ks
    · simp [hmem, List.mem_cons]
    · rw [if_neg hmem, Dict.getD_set_eq]
      by_cases heq : l = k
      · subst heq
        simp [List.mem_cons]
      · simp [List.mem_cons, heq, hmem]

/-! Invariants of the dicts the builder constructs. -/

/-- Off its key set a dict's value function is the empty set (true of
every dict reachable from `{}` by assignments). -/
def OffEmpty (d : Dict) : Prop := ∀ k, k ∉ d.keys → d.val k = ∅

theorem offEmpty_empty : OffEmpty Dict.empty := fun _ _ => rfl

theorem Dict.add_keys (d : Dict) (k : String) (i : Int) :
    (d.add k i).keys = insert k d.keys := rfl

theorem offEmpty_add {d : Dict} (h : OffEmpty d) (k : String) (i : Int) :
    OffEmpty (d.add k i) := by
  intro x hx
  rw [Dict.add_keys, Finset.mem_insert, not_or] at hx
  show (if x = k then insert i (d.val x) else d.val x) = ∅
  rw [if_neg hx.1]
  exact h x hx.2

theorem Dict.getD_add (d : Dict) (h : OffEmpty d) (k : String) (i : Int) (l : String) :
    (d.add k i).getD l = if l = k then insert i (d.getD l) else d.getD l := by
  unfold Dict.add Dict.getD
  by_cases heq : l = k
  · subst heq
    simp only [Finset.mem_insert, true_or, if_true, if_pos rfl]
    by_cases hk : l ∈ d.keys
    · rw [if_pos hk]
    · rw [if_neg hk, h l hk]
  · simp [Finset.mem_insert, heq]

/-- A well-formed index key: nonempty, whitespace-free, and already
lower-cased. -/
def keyOK (k : String) : Prop :=
  k.data ≠ [] ∧ (∀ c ∈ k.data, c.isWhitespace = false) ∧ strLower k = k

/-- The invariant the builder maintains: every key is well formed, every
present posting set is nonempty, and absent keys map to the empty set. -/
def BuildInv (d : Dict) : Prop :=
  (∀ k ∈ d.keys, keyOK k) ∧ (∀ k ∈ d.keys, d.val k ≠ ∅) ∧ OffEmpty d

theorem buildInv_empty : BuildInv Dict.empty :=
  ⟨fun k hk => absurd hk (Finset.not_mem_empty k),
    fun k hk => absurd hk (Finset.not_mem_empty k), offEmpty_empty⟩

theorem buildInv_add {d : Dict} (h : BuildInv d) {k : String} (hk : keyOK k) (i : Int) :
    BuildInv (d.add k i) := by
  obtain ⟨hkeys, hvals, hoff⟩ := h
  refine ⟨?_, ?_, offEmpty_add hoff k i⟩
  · intro x hx
    rw [Dict.add_keys] at hx
    rcases Finset.mem_insert.mp hx with rfl | hx2
    · exact hk
    · exact hkeys x hx2
  · intro x hx
    rw [Dict.add_keys] at hx
    show (if x = k then insert i (d.val x) else d.val x) ≠ ∅
    by_cases he : x = k
    · rw [if_pos he]
      exact Finset.insert_ne_empty i _
    · rw [if_neg he]
      rcases Finset.mem_insert.mp hx with h1 | h2
      · exact absurd h1 he
      · exact hvals x h2

/-- The builder's per-line step with the `let` unfolded. -/
theorem addLemmaLine_eq (docId : Int) (d : Dict) (line : String) :
    addLemmaLine docId d line =
      if pyStrip line = "" then d
      else
        match pySplit (pyStrip line) with
        | [] => d
        | lem :: _ => d.add (strLower lem) docId := rfl

/-- The first split field of a line is a nonempty whitespace-free string. -/
theorem pySplit_head_field {s : String} {t : String} {rest : List String}
    (h : pySplit s = t :: rest) :
    t.data ≠ [] ∧ ∀ c ∈ t.data, c.isWhitespace = false := by
  rcases hmap : pySplitList s.data with _ | ⟨w, ws⟩
  · rw [pySplit, hmap] at h
    cases h
  · rw [pySplit, hmap, List.map_cons] at h
    injection h with h1 _
    have hw := pySplitAux_fields s.data [] (by simp) w
      (by rw [show pySplitAux [] s.data = pySplitList s.data from rfl, hmap]
          exact List.mem_cons_self w ws)
    rw [← h1]
    exact hw

theorem addLemmaLine_inv {d : Dict} (h : BuildInv d) (docId : Int) (line : String) :
    BuildInv (addLemmaLine docId d line) := by
  rw [addLemmaLine_eq]
  by_cases hs : pyStrip line = ""
  · rw [if_pos hs]
    exact h
  · rw [if_neg hs]
    rcases hsp : pySplit (pyStrip line) with _ | ⟨lem, rest⟩
    · exact h
    · obtain ⟨hne, hnw⟩ := pySplit_head_field hsp
      exact buildInv_add h ⟨strLower_ne_nil hne, strLower_not_ws hnw, strLower_idem lem⟩ docId

theorem foldl_preserve {α : Type} {β : Type} {P : α → Prop} {f : α → β → α}
    (hstep : ∀ a b, P a → P (f a b)) :
    ∀ (l : List β) (a : α), P a → P (l.foldl f a) := by
  intro l
  induction l with
  | nil => intro a ha; exact ha
  | cons b t ih => intro a ha; exact ih (f a b) (hstep a b ha)

theorem addDoc_inv {d : Dict} (h : BuildInv d) (doc : Int × List String) :
    BuildInv (addDoc d doc) := by
  rw [addDoc]
  exact @foldl_preserve Dict String BuildInv (addLemmaLine doc.1)
    (fun a b ha => addLemmaLine_inv ha doc.1 b) doc.2 d h

theorem buildDict_inv (docs : List (Int × List String)) : BuildInv (buildDict docs) := by
  rw [buildDict]
  exact @foldl_preserve Dict (Int × List String) BuildInv addDoc
    (fun a b ha => addDoc_inv ha b) docs Dict.empty buildInv_empty

theorem addLemmaLine_off {d : Dict} (hoff : OffEmpty d) (docId : Int) (line : String) :
    OffEmpty (addLemmaLine docId d line) := by
  rw [addLemmaLine_eq]
  by_cases hs : pyStrip line = ""
  · rw [if_pos hs]
    exact hoff
  · rw [if_neg hs]
    rcases pySplit (pyStrip line) with _ | ⟨t, r⟩
    · exact hoff
    · exact offEmpty_add hoff _ _

/-- What one builder line does to the posting set of a fixed lemma. -/
theorem addLemmaLine_getD {d : Dict} (hoff : OffEmpty d) (docId : Int)
    (line : String) (l : String) :
    (addLemmaLine docId d line).getD l =
      if (match pySplit (pyStrip line) with
          | [] => false
          | t :: _ => strLower t == l) = true
      then insert docId (d.getD l) else d.getD l := by
  rw [addLemmaLine_eq]
  by_cases hs : pyStrip line = ""
  · rw [if_pos hs]
    rw [show pySplit (pyStrip line) = [] from by rw [hs]; rfl]
    simp
  · rw [if_neg hs]
    rcases hsp : pySplit (pyStrip line) with _ | ⟨t, rest⟩
    · simp
    · rw [Dict.getD_add d hoff]
      by_cases he : l = strLower t
      · rw [if_pos he, if_pos (by rw [he]; simp)]
      · rw [if_neg he, if_neg (by simp only [beq_iff_eq]; exact fun hh => he hh.symm)]

theorem docHasLemma_cons (line : String) (rest : List String) (l : String) :
    docHasLemma (line :: rest) l =
      ((match pySplit (pyStrip line) with
        | [] => false
        | t :: _ => strLower t == l) || docHasLemma rest l) := by
  rw [docHasLemma, List.any_cons]
  rfl

/-- What one whole document does to the posting set of a fixed lemma. -/
theorem addDoc_getD0 :
    ∀ (lines : List String) (docId : Int) (d : Dict) (l : String), OffEmpty d →
      (lines.foldl (addLemmaLine docId) d).getD l =
        if docHasLemma lines l then insert docId (d.getD l) else d.getD l := by
  intro lines
  induction lines with
  | nil =>
    intro docId d l _
    rw [docHasLemma]
    simp
  | cons line rest ih =>
    intro docId d l hoff
    rw [List.foldl_cons, ih docId _ l (addLemmaLine_off hoff docId line),
      addLemmaLine_getD hoff docId line l, docHasLemma_cons]
    by_cases h1 : (match pySplit (pyStrip line) with
        | [] => false
        | t :: _ => strLower t == l) = true
    · rw [h1]
      by_cases h2 : docHasLemma rest l
      · simp [h2, Finset.insert_idem]
      · simp [h2]
    · rw [Bool.not_eq_true] at h1
      rw [h1]
      simp

theorem buildDict_getD :
    ∀ (docs : List (Int × List String)) (d : Dict) (l : String), OffEmpty d →
      (docs.foldl addDoc d).getD l =
        docs.foldl
          (fun acc doc => if docHasLemma doc.2 l then insert doc.1 acc else acc)
          (d.getD l) := by
  intro docs
  induction docs with
  | nil => intro d l _; rfl
  | cons doc rest ih =>
    intro d l hoff
    have haddoff : OffEmpty (addDoc d doc) := by
      rw [addDoc]
      exact @foldl_preserve Dict String OffEmpty (addLemmaLine doc.1)
        (fun a b ha => addLemmaLine_off ha doc.1 b) doc.2 d hoff
    rw [List.foldl_cons, List.foldl_cons, ih (addDoc d doc) l haddoff,
      show (addDoc d doc).getD l =
        if docHasLemma doc.2 l then insert doc.1 (d.getD l) else d.getD l from by
          rw [addDoc]; exact addDoc_getD0 doc.2 doc.1 d l hoff]

/-- The in-memory index the builder accumulates holds, for every lemma,
exactly the ids of the documents containing it. -/
theorem postingsOf_buildDict (docs : List (Int × List String)) (l : String) :
    (buildDict docs).getD l = postingsOf docs l := by
  rw [buildDict, postingsOf, buildDict_getD docs Dict.empty l offEmpty_empty]
  have : Dict.empty.getD l = ∅ := by simp [Dict.getD, Dict.empty]
  rw [this]

/-- `str(i)` is a nonempty whitespace-free field. -/
theorem intStr_field (i : Int) :
    (intStr i).data ≠ [] ∧ ∀ c ∈ (intStr i).data, c.isWhitespace = false := by
  cases i with
  | ofNat n =>
    simp only [intStr]
    rw [natDigits_eq]
    refine ⟨natDigitsRec_ne_nil n, ?_⟩
    intro c hc
    obtain ⟨d, hd, rfl⟩ := natDigitsRec_mem hc
    exact (digitChar_props hd).2.1
  | negSucc n =>
    simp only [intStr]
    constructor
    · simp
    · intro c hc
      rcases List.mem_cons.mp hc with rfl | hc2
      · decide
      · rw [natDigits_eq] at hc2
        obtain ⟨d, hd, rfl⟩ := natDigitsRec_mem hc2
        exact (digitChar_props hd).2.1

theorem sort_map_ne_nil {ids : Finset Int} (h : ids ≠ ∅) :
    (ids.sort (· ≤ ·)).map intStr ≠ [] := by
  intro hc
  rw [List.map_eq_nil_iff] at hc
  have hts := Finset.sort_toFinset (· ≤ ·) ids
  rw [hc] at hts
  simp at hts
  exact h hts.symm

/-- Parsing the rendered posting fields of a set recovers the set. -/
theorem parseFields_render (ids : Finset Int) :
    parseFields ((ids.sort (· ≤ ·)).map intStr) = .ok ids := by
  rw [parseFields_intStr]
  congr 1
  exact Finset.sort_toFinset _ ids

/-- One well-formed line of the loader's loop. -/
theorem load_cons_ok {d : Dict} {line t : String} {fields : List String} {ids : Finset Int}
    (hs : pyStrip line = line) (hne : line ≠ "") (hsp : pySplit line = t :: fields)
    (hpf : parseFields fields = .ok ids) (rest : List String) :
    load_inverted_index d (line :: rest) =
      load_inverted_index (d.set (strLower t) ids) rest := by
  conv_lhs => rw [load_inverted_index]
  rw [hs, if_neg hne, hsp]
  dsimp only
  rw [hpf]

/-- Loading the rendered lines of well-formed keys performs exactly the
corresponding sequence of assignments. -/
theorem load_render_list (v : String → Finset Int) :
    ∀ (ks : List String) (d : Dict),
      (∀ k ∈ ks, keyOK k ∧ v k ≠ ∅) →
      load_inverted_index d (ks.map fun t => renderLine t (v t)) =
        .ok (ks.foldl (fun d t => d.set t (v t)) d) := by
  intro ks
  induction ks with
  | nil => intro d _; rfl
  | cons k ks ih =>
    intro d hprops
    obtain ⟨⟨hkne, hknw, hklow⟩, hvne⟩ := hprops k (List.mem_cons_self k ks)
    have hfieldprops : ∀ f ∈ ((v k).sort (· ≤ ·)).map intStr,
        f.data ≠ [] ∧ ∀ c ∈ f.data, c.isWhitespace = false := by
      intro f hf
      rw [List.mem_map] at hf
      obtain ⟨i, _, rfl⟩ := hf
      exact intStr_field i
    have hfne : ((v k).sort (· ≤ ·)).map intStr ≠ [] := sort_map_ne_nil hvne
    have hstrip : pyStrip (renderLine k (v k)) = renderLine k (v k) := by
      rw [renderLine]
      exact pyStrip_render hkne hknw hfne hfieldprops
    have hlinene : renderLine k (v k) ≠ "" := by
      intro hc
      have hdd : (renderLine k (v k)).data = [] := by rw [hc]
      rw [renderLine, String.data_append, String.data_append] at hdd
      simp at hdd
    have hsplit : pySplit (renderLine k (v k)) = k :: ((v k).sort (· ≤ ·)).map intStr := by
      rw [renderLine]
      exact pySplit_render hkne hknw hfne hfieldprops
    rw [List.map_cons,
      load_cons_ok hstrip hlinene hsplit (parseFields_render (v k)) _, hklow,
      ih (d.set k (v k)) (fun x hx => hprops x (List.mem_cons_of_mem k hx)),
      List.foldl_cons]

/-- C4: round-trip — loading the index persisted by `build` over a lemma
source `docs` succeeds and yields, for every lemma, exactly the set of
DocIds whose document in `docs` contains that lemma. -/
theorem C4_round_trip :
    ∀ docs : List (Int × List String), ∃ D,
      loadIndex (build_inverted_index docs) = .ok D ∧
        ∀ l, D.getD l = postingsOf docs l := by
  intro docs
  obtain ⟨hkeys, hvals, hoff⟩ := buildDict_inv docs
  refine ⟨((buildDict docs).keys.sort (· ≤ ·)).foldl
      (fun d t => d.set t ((buildDict docs).val t)) Dict.empty, ?_, ?_⟩
  · rw [loadIndex]
    rw [show build_inverted_index docs =
        ((buildDict docs).keys.sort (· ≤ ·)).map
          (fun t => renderLine t ((buildDict docs).val t)) from rfl]
    exact load_render_list (buildDict docs).val _ Dict.empty
      (fun k hk =>
        ⟨hkeys k ((Finset.mem_sort _).mp hk), hvals k ((Finset.mem_sort _).mp hk)⟩)
  · intro l
    rw [foldl_set_getD]
    by_cases hmem : l ∈ (buildDict docs).keys.sort (· ≤ ·)
    · rw [if_pos hmem, ← postingsOf_buildDict, Dict.getD,
        if_pos ((Finset.mem_sort _).mp hmem)]
    · rw [if_neg hmem, ← postingsOf_buildDict,
        show (buildDict docs).getD l = ∅ from by
          rw [Dict.getD, if_neg (fun hc => hmem ((Finset.mem_sort _).mpr hc))]]
      simp [Dict.getD, Dict.empty]

/-! ### C5: persisted format, ordering, and determinism of `build` -/

theorem postingsOf_foldl (l : String) :
    ∀ (docs : List (Int × List String)) (acc : Finset Int),
      docs.foldl (fun acc doc => if docHasLemma doc.2 l then insert doc.1 acc else acc) acc =
        ((docs.filter fun doc => docHasLemma doc.2 l).map Prod.fst).toFinset ∪ acc := by
  intro docs
  induction docs with
  | nil => intro acc; simp
  | cons doc rest ih =>
    intro acc
    rw [List.foldl_cons]
    by_cases h : docHasLemma doc.2 l = true
    · have hfil : List.filter (fun doc : Int × List String => docHasLemma doc.2 l) (doc :: rest) =
          doc :: List.filter (fun doc : Int × List String => docHasLemma doc.2 l) rest := by
        rw [List.filter_cons, if_pos h]
      rw [if_pos h, ih, hfil, List.map_cons, List.toFinset_cons,
        Finset.insert_union, Finset.union_insert]
    · have hfil : List.filter (fun doc : Int × List String => docHasLemma doc.2 l) (doc :: rest) =
          List.filter (fun doc : Int × List String => docHasLemma doc.2 l) rest := by
        rw [List.filter_cons, if_neg h]
      rw [if_neg h, ih, hfil]

/-- A lemma's posting set does not depend on the order in which the
documents are processed. -/
theorem postingsOf_perm {docs docs' : List (Int × List String)}
    (h : docs.Perm docs') (l : String) : postingsOf docs l = postingsOf docs' l := by
  rw [postingsOf, postingsOf, postingsOf_foldl l docs ∅, postingsOf_foldl l docs' ∅]
  congr 1
  exact List.toFinset_eq_of_perm _ _ ((h.filter _).map Prod.fst)

theorem mem_buildDict_keys (docs : List (Int × List String)) (l : String) :
    l ∈ (buildDict docs).keys ↔ postingsOf docs l ≠ ∅ := by
  constructor
  · intro h
    rw [← postingsOf_buildDict, Dict.getD, if_pos h]
    exact (buildDict_inv docs).2.1 l h
  · intro h
    by_contra hc
    apply h
    rw [← postingsOf_buildDict, Dict.getD, if_neg hc]

theorem buildDict_val_eq (docs : List (Int × List String)) {l : String}
    (h : l ∈ (buildDict docs).keys) : (buildDict docs).val l = postingsOf docs l := by
  rw [← postingsOf_buildDict, Dict.getD, if_pos h]

theorem buildDict_keys_perm {docs docs' : List (Int × List String)}
    (h : docs.Perm docs') : (buildDict docs).keys = (buildDict docs').keys := by
  apply Finset.ext
  intro l
  rw [mem_buildDict_keys, mem_buildDict_keys, postingsOf_perm h l]

/-- The persisted bytes are identical for any processing order of the
same document collection. -/
theorem build_inverted_index_perm {docs docs' : List (Int × List String)}
    (h : docs.Perm docs') : build_inverted_index docs = build_inverted_index docs' := by
  rw [show build_inverted_index docs = ((buildDict docs).keys.sort (· ≤ ·)).map
      (fun t => renderLine t ((buildDict docs).val t)) from rfl,
    show build_inverted_index docs' = ((buildDict docs').keys.sort (· ≤ ·)).map
      (fun t => renderLine t ((buildDict docs').val t)) from rfl,
    buildDict_keys_perm h]
  apply List.map_congr_left
  intro t ht
  have htk : t ∈ (buildDict docs').keys := (Finset.mem_sort _).mp ht
  have htk1 : t ∈ (buildDict docs).keys := by rw [buildDict_keys_perm h]; exact htk
  rw [buildDict_val_eq docs htk1, buildDict_val_eq docs' htk, postingsOf_perm h t]

/-- C5: each persisted line is the lemma followed by its DocIds rendered
in ascending numeric order; the lemma (first split field) sequence is
strictly ascending; and the persisted output is identical for any
processing order of a fixed document collection. -/
theorem C5_persisted_format :
    ∀ docs : List (Int × List String),
      ((build_inverted_index docs).map fun line => (pySplit line).headI).Sorted (· < ·) ∧
      (∀ line ∈ build_inverted_index docs, ∃ (t : String) (ids : Finset Int), ids ≠ ∅ ∧
        line = renderLine t ids ∧
        pySplit line = t :: (ids.sort (· ≤ ·)).map intStr ∧
        (ids.sort (· ≤ ·)).Sorted (· < ·)) ∧
      ∀ docs' : List (Int × List String), docs.Perm docs' →
        build_inverted_index docs = build_inverted_index docs' := by
  intro docs
  obtain ⟨hkeys, hvals, hoff⟩ := buildDict_inv docs
  have hsplitline : ∀ t ∈ (buildDict docs).keys.sort (· ≤ ·),
      pySplit (renderLine t ((buildDict docs).val t)) =
        t :: (((buildDict docs).val t).sort (· ≤ ·)).map intStr := by
    intro t ht
    have htk := (Finset.mem_sort _).mp ht
    obtain ⟨hne, hnw, _⟩ := hkeys t htk
    rw [renderLine]
    exact pySplit_render hne hnw (sort_map_ne_nil (hvals t htk))
      (fun f hf => by
        rw [List.mem_map] at hf
        obtain ⟨i, _, rfl⟩ := hf
        exact intStr_field i)
  refine ⟨?_, ?_, fun docs' h => build_inverted_index_perm h⟩
  · rw [show build_inverted_index docs = ((buildDict docs).keys.sort (· ≤ ·)).map
        (fun t => renderLine t ((buildDict docs).val t)) from rfl, List.map_map]
    have hmapid : ((buildDict docs).keys.sort (· ≤ ·)).map
        ((fun line => (pySplit line).headI) ∘ fun t => renderLine t ((buildDict docs).val t)) =
        ((buildDict docs).keys.sort (· ≤ ·)).map id := by
      apply List.map_congr_left
      intro t ht
      show (pySplit (renderLine t ((buildDict docs).val t))).headI = t
      rw [hsplitline t ht]
      rfl
    rw [hmapid, List.map_id]
    exact Finset.sort_sorted_lt _
  · intro line hline
    rw [show build_inverted_index docs = ((buildDict docs).keys.sort (· ≤ ·)).map
        (fun t => renderLine t ((buildDict docs).val t)) from rfl, List.mem_map] at hline
    obtain ⟨t, ht, rfl⟩ := hline
    exact ⟨t, (buildDict docs).val t, hvals t ((Finset.mem_sort _).mp ht), rfl,
      hsplitline t ht, Finset.sort_sorted_lt _⟩

theorem C5_persisted_format_witness :
    (([((1 : Int), (["a"] : List String)), (2, ["b"])]).Perm [(2, ["b"]), (1, ["a"])]) ∧
    build_inverted_index [((1 : Int), (["a"] : List String)), (2, ["b"])] =
      build_inverted_index [(2, ["b"]), (1, ["a"])] :=
  ⟨List.Perm.swap _ _ _, (C5_persisted_format _).2.2 _ (List.Perm.swap _ _ _)⟩

/-! ### C6: lenient parsing — implicit close and empty primaries

The implicit-close property is proved as a simulation: running the parser
on `ts` and on `ts ++ [")"]` from related positions yields the same value,
with positions related by `PosRel` (lockstep until the original stream is
exhausted; the extended run may additionally consume the appended `)`). -/

/-- Parser state over the original token stream. -/
def stA (ts : List String) (idx : Dict) (U : Finset Int) (p : Nat) : QPState :=
  ⟨ts, p, idx, U⟩

/-- Parser state over the stream with one `)` appended. -/
def stB (ts : List String) (idx : Dict) (U : Finset Int) (p : Nat) : QPState :=
  ⟨ts ++ [")"], p, idx, U⟩

@[simp] theorem stA_pos (ts : List String) (idx : Dict) (U : Finset Int) (p : Nat) :
    (stA ts idx U p).pos = p := rfl

@[simp] theorem stB_pos (ts : List String) (idx : Dict) (U : Finset Int) (p : Nat) :
    (stB ts idx U p).pos = p := rfl

/-- Position correspondence between the two runs. -/
def PosRel (ts : List String) (p p' : Nat) : Prop :=
  (p = p' ∧ p ≤ ts.length) ∨ (p = ts.length ∧ p' = ts.length + 1)

theorem stA_peek_lt {ts : List String} {p : Nat} (idx : Dict) (U : Finset Int)
    (h : p < ts.length) : (stA ts idx U p).peek = some ts[p] := by
  show ts[p]? = some ts[p]
  exact List.getElem?_eq_getElem h

theorem stB_peek_lt {ts : List String} {p : Nat} (idx : Dict) (U : Finset Int)
    (h : p < ts.length) : (stB ts idx U p).peek = some ts[p] := by
  show (ts ++ [")"])[p]? = some ts[p]
  rw [List.getElem?_append_left h]
  exact List.getElem?_eq_getElem h

theorem stA_peek_end {ts : List String} {p : Nat} (idx : Dict) (U : Finset Int)
    (h : ts.length ≤ p) : (stA ts idx U p).peek = none := by
  show ts[p]? = none
  exact List.getElem?_eq_none h

theorem stB_peek_close (ts : List String) (idx : Dict) (U : Finset Int) :
    (stB ts idx U ts.length).peek = some ")" := by
  show (ts ++ [")"])[ts.length]? = some ")"
  rw [List.getElem?_append_right (Nat.le_refl _)]
  simp

theorem stB_peek_end {ts : List String} {p : Nat} (idx : Dict) (U : Finset Int)
    (h : ts.length + 1 ≤ p) : (stB ts idx U p).peek = none := by
  show (ts ++ [")"])[p]? = none
  apply List.getElem?_eq_none
  simpa using h

theorem stA_consume_lt {ts : List String} {p : Nat} (idx : Dict) (U : Finset Int)
    (h : p < ts.length) : (stA ts idx U p).consume = stA ts idx U (p + 1) := by
  unfold QPState.consume
  rw [if_pos (show (stA ts idx U p).pos < (stA ts idx U p).tokens.length from h)]
  rfl

theorem stB_consume_lt {ts : List String} {p : Nat} (idx : Dict) (U : Finset Int)
    (h : p < ts.length + 1) : (stB ts idx U p).consume = stB ts idx U (p + 1) := by
  unfold QPState.consume
  rw [if_pos (show (stB ts idx U p).pos < (stB ts idx U p).tokens.length from by
    show p < (ts ++ [")"]).length
    rw [List.length_append]
    simpa using h)]
  rfl

theorem shapeA {ts : List String} {idx : Dict} {U : Finset Int} {m : Nat} {st' : QPState}
    (h : QPState.Preserves (stA ts idx U m) st') : st' = stA ts idx U st'.pos := by
  rcases st' with ⟨t, q, i, a⟩
  obtain ⟨h1, h2, h3, _⟩ := h
  rw [show stA ts idx U q = ⟨ts, q, idx, U⟩ from rfl,
    show t = ts from h1, show i = idx from h2, show a = U from h3]

theorem shapeB {ts : List String} {idx : Dict} {U : Finset Int} {m : Nat} {st' : QPState}
    (h : QPState.Preserves (stB ts idx U m) st') : st' = stB ts idx U st'.pos := by
  rcases st' with ⟨t, q, i, a⟩
  obtain ⟨h1, h2, h3, _⟩ := h
  rw [show stB ts idx U q = ⟨ts ++ [")"], q, idx, U⟩ from rfl,
    show t = ts ++ [")"] from h1, show i = idx from h2, show a = U from h3]

/-- At end of input every parse function returns its neutral value and
leaves the state unchanged. -/
theorem parse_at_end (st : QPState) (h : st.peek = none) :
    (primV st = ∅ ∧ primS st = st) ∧
    (∀ l : Finset Int, andLoopV st l = l ∧ andLoopS st l = st) ∧
    (andV st = ∅ ∧ andS st = st) ∧
    (∀ l : Finset Int, orLoopV st l = l ∧ orLoopS st l = st) ∧
    (orV st = ∅ ∧ orS st = st) := by
  have hprim := prim_eq_none h
  have hal : ∀ l : Finset Int, andLoopV st l = l ∧ andLoopS st l = st :=
    fun l => andLoop_eq_exit (by rw [h]; intro hc; cases hc)
  have hand : andV st = ∅ ∧ andS st = st :=
    ⟨by rw [(and_eq st).1, hprim.2, hprim.1, (hal ∅).1],
     by rw [(and_eq st).2, hprim.2, hprim.1, (hal ∅).2]⟩
  have hol : ∀ l : Finset Int, orLoopV st l = l ∧ orLoopS st l = st :=
    fun l => orLoop_eq_exit (by rw [h]; intro hc; cases hc)
  have hor : orV st = ∅ ∧ orS st = st :=
    ⟨by rw [(or_eq st).1, hand.2, hand.1, (hol ∅).1],
     by rw [(or_eq st).2, hand.2, hand.1, (hol ∅).2]⟩
  exact ⟨hprim, hal, hand, hol, hor⟩

/-- At an unconsumed `)` every parse function returns its neutral value
and leaves the state unchanged. -/
theorem parse_at_close (st : QPState) (h : st.peek = some ")") :
    (primV st = ∅ ∧ primS st = st) ∧
    (∀ l : Finset Int, andLoopV st l = l ∧ andLoopS st l = st) ∧
    (andV st = ∅ ∧ andS st = st) ∧
    (∀ l : Finset Int, orLoopV st l = l ∧ orLoopS st l = st) ∧
    (orV st = ∅ ∧ orS st = st) := by
  have hprim := prim_eq_stop h (Or.inr (Or.inr rfl))
  have hal : ∀ l : Finset Int, andLoopV st l = l ∧ andLoopS st l = st :=
    fun l => andLoop_eq_exit
      (by rw [h]; intro hc; exact absurd (Option.some.inj hc) (by decide))
  have hand : andV st = ∅ ∧ andS st = st :=
    ⟨by rw [(and_eq st).1, hprim.2, hprim.1, (hal ∅).1],
     by rw [(and_eq st).2, hprim.2, hprim.1, (hal ∅).2]⟩
  have hol : ∀ l : Finset Int, orLoopV st l = l ∧ orLoopS st l = st :=
    fun l => orLoop_eq_exit
      (by rw [h]; intro hc; exact absurd (Option.some.inj hc) (by decide))
  have hor : orV st = ∅ ∧ orS st = st :=
    ⟨by rw [(or_eq st).1, hand.2, hand.1, (hol ∅).1],
     by rw [(or_eq st).2, hand.2, hand.1, (hol ∅).2]⟩
  exact ⟨hprim, hal, hand, hol, hor⟩

def SimPrim (ts : List String) (idx : Dict) (U : Finset Int) (p p' : Nat) : Prop :=
  primV (stB ts idx U p') = primV (stA ts idx U p) ∧
    PosRel ts (primS (stA ts idx U p)).pos (primS (stB ts idx U p')).pos

def SimAndLoop (ts : List String) (idx : Dict) (U : Finset Int) (p p' : Nat) : Prop :=
  ∀ left : Finset Int,
    andLoopV (stB ts idx U p') left = andLoopV (stA ts idx U p) left ∧
      PosRel ts (andLoopS (stA ts idx U p) left).pos (andLoopS (stB ts idx U p') left).pos

def SimAnd (ts : List String) (idx : Dict) (U : Finset Int) (p p' : Nat) : Prop :=
  andV (stB ts idx U p') = andV (stA ts idx U p) ∧
    PosRel ts (andS (stA ts idx U p)).pos (andS (stB ts idx U p')).pos

def SimOrLoop (ts : List String) (idx : Dict) (U : Finset Int) (p p' : Nat) : Prop :=
  ∀ left : Finset Int,
    orLoopV (stB ts idx U p') left = orLoopV (stA ts idx U p) left ∧
      PosRel ts (orLoopS (stA ts idx U p) left).pos (orLoopS (stB ts idx U p') left).pos

def SimOr (ts : List String) (idx : Dict) (U : Finset Int) (p p' : Nat) : Prop :=
  orV (stB ts idx U p') = orV (stA ts idx U p) ∧
    PosRel ts (orS (stA ts idx U p)).pos (orS (stB ts idx U p')).pos

def SimAll (ts : List String) (idx : Dict) (U : Finset Int) (p p' : Nat) : Prop :=
  SimPrim ts idx U p p' ∧ SimAndLoop ts idx U p p' ∧ SimAnd ts idx U p p' ∧
    SimOrLoop ts idx U p p' ∧ SimOr ts idx U p p'

/-- Both runs exhausted (up to the appended close): every parse function
is neutral on both sides. -/
theorem sim_boundary (ts : List String) (idx : Dict) (U : Finset Int) (p p' : Nat)
    (hrel : PosRel ts p p') (hp : p = ts.length) : SimAll ts idx U p p' := by
  subst hp
  have hA := parse_at_end (stA ts idx U ts.length) (stA_peek_end idx U (Nat.le_refl _))
  have hrel2 : PosRel ts ts.length p' := hrel
  rcases hrel with ⟨hp', _⟩ | ⟨_, hp'⟩ <;> subst hp'
  · have hB := parse_at_close (stB ts idx U ts.length) (stB_peek_close ts idx U)
    refine ⟨⟨by rw [hB.1.1, hA.1.1], by rw [hA.1.2, hB.1.2]; exact hrel2⟩,
      fun left => ⟨by rw [(hB.2.1 left).1, (hA.2.1 left).1],
        by rw [(hA.2.1 left).2, (hB.2.1 left).2]; exact hrel2⟩,
      ⟨by rw [hB.2.2.1.1, hA.2.2.1.1], by rw [hA.2.2.1.2, hB.2.2.1.2]; exact hrel2⟩,
      fun left => ⟨by rw [(hB.2.2.2.1 left).1, (hA.2.2.2.1 left).1],
        by rw [(hA.2.2.2.1 left).2, (hB.2.2.2.1 left).2]; exact hrel2⟩,
      ⟨by rw [hB.2.2.2.2.1, hA.2.2.2.2.1],
        by rw [hA.2.2.2.2.2, hB.2.2.2.2.2]; exact hrel2⟩⟩
  · have hB := parse_at_end (stB ts idx U (ts.length + 1))
      (stB_peek_end idx U (Nat.le_refl _))
    refine ⟨⟨by rw [hB.1.1, hA.1.1], by rw [hA.1.2, hB.1.2]; exact hrel2⟩,
      fun left => ⟨by rw [(hB.2.1 left).1, (hA.2.1 left).1],
        by rw [(hA.2.1 left).2, (hB.2.1 left).2]; exact hrel2⟩,
      ⟨by rw [hB.2.2.1.1, hA.2.2.1.1], by rw [hA.2.2.1.2, hB.2.2.1.2]; exact hrel2⟩,
      fun left => ⟨by rw [(hB.2.2.2.1 left).1, (hA.2.2.2.1 left).1],
        by rw [(hA.2.2.2.1 left).2, (hB.2.2.2.1 left).2]; exact hrel2⟩,
      ⟨by rw [hB.2.2.2.2.1, hA.2.2.2.2.1],
        by rw [hA.2.2.2.2.2, hB.2.2.2.2.2]; exact hrel2⟩⟩

/-- Appending one `)` to the token stream never changes any parse
function's value, and moves the final position in the `PosRel`
correspondence. -/
theorem sim_main :
    ∀ (n : Nat) (ts : List String) (idx : Dict) (U : Finset Int) (p p' : Nat),
      ts.length - p ≤ n → PosRel ts p p' → SimAll ts idx U p p' := by
  intro n
  induction n with
  | zero =>
    intro ts idx U p p' hn hrel
    have hp : p = ts.length := by
      rcases hrel with ⟨_, hple⟩ | ⟨hpe, _⟩
      · omega
      · exact hpe
    exact sim_boundary ts idx U p p' hrel hp
  | succ n ih =>
    intro ts idx U p p' hn hrel
    have Hprim : ∀ q q', ts.length - q ≤ n + 1 → PosRel ts q q' →
        SimPrim ts idx U q q' := by
      intro q q' hqn hqrel
      rcases hqrel with ⟨rfl, hqle⟩ | ⟨hqA, hqB⟩
      · by_cases hqlt : q < ts.length
        · have hpA := stA_peek_lt idx U hqlt
          have hpB := stB_peek_lt idx U hqlt
          have hcA := stA_consume_lt idx U hqlt
          have hcB := @stB_consume_lt ts q idx U (by omega)
          by_cases ht1 : ts[q] = "("
          · have hA := prim_eq_lparen
              (show (stA ts idx U q).peek = some "(" from by rw [hpA, ht1])
            have hB := prim_eq_lparen
              (show (stB ts idx U q).peek = some "(" from by rw [hpB, ht1])
            obtain ⟨hOrV, hOrRel⟩ :=
              (ih ts idx U (q + 1) (q + 1) (by omega) (Or.inl ⟨rfl, by omega⟩)).2.2.2.2
            obtain ⟨mA, hmA⟩ : ∃ mA, (orS (stA ts idx U (q + 1))).pos = mA := ⟨_, rfl⟩
            obtain ⟨mB, hmB⟩ : ∃ mB, (orS (stB ts idx U (q + 1))).pos = mB := ⟨_, rfl⟩
            have hshA : orS (stA ts idx U (q + 1)) = stA ts idx U mA := by
              rw [← hmA]
              exact shapeA (orS_preserves _)
            have hshB : orS (stB ts idx U (q + 1)) = stB ts idx U mB := by
              rw [← hmB]
              exact shapeB (orS_preserves _)
            rw [hmA, hmB] at hOrRel
            constructor
            · rw [hB.1, hA.1, hcA, hcB, hOrV]
            · rw [hA.2, hB.2, hcA, hcB, hshA, hshB]
              rcases hOrRel with ⟨hBA, hmAle⟩ | ⟨hmAA, hmBB⟩
              · subst hBA
                by_cases hmlt : mA < ts.length
                · have hpa := stA_peek_lt idx U hmlt
                  have hpb := stB_peek_lt idx U hmlt
                  by_cases hcl : ts[mA] = ")"
                  · rw [if_pos (show (stA ts idx U mA).peek = some ")" from by
                        rw [hpa, hcl]),
                      if_pos (show (stB ts idx U mA).peek = some ")" from by
                        rw [hpb, hcl]),
                      stA_consume_lt idx U hmlt, stB_consume_lt idx U (by omega)]
                    simp only [stA_pos, stB_pos]
                    exact Or.inl ⟨rfl, by omega⟩
                  · rw [if_neg (show ¬(stA ts idx U mA).peek = some ")" from by
                        rw [hpa]; intro hc; exact hcl (Option.some.inj hc)),
                      if_neg (show ¬(stB ts idx U mA).peek = some ")" from by
                        rw [hpb]; intro hc; exact hcl (Option.some.inj hc))]
                    simp only [stA_pos, stB_pos]
                    exact Or.inl ⟨rfl, hmAle⟩
                · have hmeq : mA = ts.length := by omega
                  subst hmeq
                  rw [if_neg (show ¬(stA ts idx U ts.length).peek = some ")" from by
                      rw [stA_peek_end idx U (Nat.le_refl _)]; intro hc; cases hc),
                    if_pos (stB_peek_close ts idx U),
                    stB_consume_lt idx U (by omega)]
                  simp only [stA_pos, stB_pos]
                  exact Or.inr ⟨rfl, rfl⟩
              · subst hmAA
                subst hmBB
                rw [if_neg (show ¬(stA ts idx U ts.length).peek = some ")" from by
                    rw [stA_peek_end idx U (Nat.le_refl _)]; intro hc; cases hc),
                  if_neg (show ¬(stB ts idx U (ts.length + 1)).peek = some ")" from by
                    rw [stB_peek_end idx U (Nat.le_refl _)]; intro hc; cases hc)]
                simp only [stA_pos, stB_pos]
                exact Or.inr ⟨rfl, rfl⟩
          · by_cases ht2 : ts[q] = "not"
            · have hA := prim_eq_not
                (show (stA ts idx U q).peek = some "not" from by rw [hpA, ht2])
              have hB := prim_eq_not
                (show (stB ts idx U q).peek = some "not" from by rw [hpB, ht2])
              obtain ⟨hPV, hPRel⟩ :=
                (ih ts idx U (q + 1) (q + 1) (by omega) (Or.inl ⟨rfl, by omega⟩)).1
              constructor
              · rw [hB.1, hA.1, hcA, hcB, hPV]
                rfl
              · rw [hA.2, hB.2, hcA, hcB]
                exact hPRel
            · by_cases ht3 : ts[q] = "and" ∨ ts[q] = "or" ∨ ts[q] = ")"
              · have hA := prim_eq_stop hpA ht3
                have hB := prim_eq_stop hpB ht3
                constructor
                · rw [hB.1, hA.1]
                · rw [hA.2, hB.2]
                  simp only [stA_pos, stB_pos]
                  exact Or.inl ⟨rfl, by omega⟩
              · push_neg at ht3
                have hA := prim_eq_term hpA ht1 ht2 ht3.1 ht3.2.1 ht3.2.2
                have hB := prim_eq_term hpB ht1 ht2 ht3.1 ht3.2.1 ht3.2.2
                constructor
                · rw [hB.1, hA.1]
                  rfl
                · rw [hA.2, hB.2, hcA, hcB]
                  simp only [stA_pos, stB_pos]
                  exact Or.inl ⟨rfl, by omega⟩
        · have hq : q = ts.length := by omega
          exact (sim_boundary ts idx U q q (Or.inl ⟨rfl, hqle⟩) hq).1
      · exact (sim_boundary ts idx U q q' (Or.inr ⟨hqA, hqB⟩) hqA).1
    have HandLoop : ∀ q q', ts.length - q ≤ n + 1 → PosRel ts q q' →
        SimAndLoop ts idx U q q' := by
      intro q q' hqn hqrel
      rcases hqrel with ⟨rfl, hqle⟩ | ⟨hqA, hqB⟩
      · by_cases hqlt : q < ts.length
        · have hpA := stA_peek_lt idx U hqlt
          have hpB := stB_peek_lt idx U hqlt
          have hcA := stA_consume_lt idx U hqlt
          have hcB := @stB_consume_lt ts q idx U (by omega)
          by_cases hand : ts[q] = "and"
          · intro left
            have hA := @andLoop_eq_top (stA ts idx U q) left
              (show (stA ts idx U q).peek = some "and" from by rw [hpA, hand])
            have hB := @andLoop_eq_top (stB ts idx U q) left
              (show (stB ts idx U q).peek = some "and" from by rw [hpB, hand])
            obtain ⟨hPV, hPRel⟩ :=
              (ih ts idx U (q + 1) (q + 1) (by omega) (Or.inl ⟨rfl, by omega⟩)).1
            obtain ⟨mA, hmA⟩ : ∃ mA, (primS (stA ts idx U (q + 1))).pos = mA := ⟨_, rfl⟩
            obtain ⟨mB, hmB⟩ : ∃ mB, (primS (stB ts idx U (q + 1))).pos = mB := ⟨_, rfl⟩
            have hshA : primS (stA ts idx U (q + 1)) = stA ts idx U mA := by
              rw [← hmA]
              exact shapeA (primS_preserves _)
            have hshB : primS (stB ts idx U (q + 1)) = stB ts idx U mB := by
              rw [← hmB]
              exact shapeB (primS_preserves _)
            rw [hmA, hmB] at hPRel
            have hmAge : q + 1 ≤ mA := by
              have hmono := (primS_preserves (stA ts idx U (q + 1))).2.2.2
              rw [hmA] at hmono
              simpa using hmono
            have hInner := (ih ts idx U mA mB (by omega) hPRel).2.1
            constructor
            · rw [hB.1, hA.1, hcA, hcB, hshA, hshB, hPV,
                (hInner (left ∩ primV (stA ts idx U (q + 1)))).1]
            · rw [hA.2, hB.2, hcA, hcB, hshA, hshB, hPV]
              exact (hInner (left ∩ primV (stA ts idx U (q + 1)))).2
          · intro left
            have hA := @andLoop_eq_exit (stA ts idx U q) left
              (by rw [hpA]; intro hc; exact hand (Option.some.inj hc))
            have hB := @andLoop_eq_exit (stB ts idx U q) left
              (by rw [hpB]; intro hc; exact hand (Option.some.inj hc))
            constructor
            · rw [hB.1, hA.1]
            · rw [hA.2, hB.2]
              simp only [stA_pos, stB_pos]
              exact Or.inl ⟨rfl, by omega⟩
        · have hq : q = ts.length := by omega
          exact (sim_boundary ts idx U q q (Or.inl ⟨rfl, hqle⟩) hq).2.1
      · exact (sim_boundary ts idx U q q' (Or.inr ⟨hqA, hqB⟩) hqA).2.1
    have Hand : ∀ q q', ts.length - q ≤ n + 1 → PosRel ts q q' →
        SimAnd ts idx U q q' := by
      intro q q' hqn hqrel
      obtain ⟨hPV, hPRel⟩ := Hprim q q' hqn hqrel
      obtain ⟨mA, hmA⟩ : ∃ mA, (primS (stA ts idx U q)).pos = mA := ⟨_, rfl⟩
      obtain ⟨mB, hmB⟩ : ∃ mB, (primS (stB ts idx U q')).pos = mB := ⟨_, rfl⟩
      have hshA : primS (stA ts idx U q) = stA ts idx U mA := by
        rw [← hmA]
        exact shapeA (primS_preserves _)
      have hshB : primS (stB ts idx U q') = stB ts idx U mB := by
        rw [← hmB]
        exact shapeB (primS_preserves _)
      rw [hmA, hmB] at hPRel
      have hge : q ≤ mA := by
        have hmono := (primS_preserves (stA ts idx U q)).2.2.2
        rw [hmA] at hmono
        simpa using hmono
      have hAL := HandLoop mA mB (by omega) hPRel (primV (stA ts idx U q))
      constructor
      · rw [(and_eq (stB ts idx U q')).1, (and_eq (stA ts idx U q)).1, hshA, hshB, hPV,
          hAL.1]
      · rw [(and_eq (stA ts idx U q)).2, (and_eq (stB ts idx U q')).2, hshA, hshB, hPV]
        exact hAL.2
    have HorLoop : ∀ q q', ts.length - q ≤ n + 1 → PosRel ts q q' →
        SimOrLoop ts idx U q q' := by
      intro q q' hqn hqrel
      rcases hqrel with ⟨rfl, hqle⟩ | ⟨hqA, hqB⟩
      · by_cases hqlt : q < ts.length
        · have hpA := stA_peek_lt idx U hqlt
          have hpB := stB_peek_lt idx U hqlt
          have hcA := stA_consume_lt idx U hqlt
          have hcB := @stB_consume_lt ts q idx U (by omega)
          by_cases hor : ts[q] = "or"
          · intro left
            have hA := @orLoop_eq_top (stA ts idx U q) left
              (show (stA ts idx U q).peek = some "or" from by rw [hpA, hor])
            have hB := @orLoop_eq_top (stB ts idx U q) left
              (show (stB ts idx U q).peek = some "or" from by rw [hpB, hor])
            obtain ⟨hPV, hPRel⟩ :=
              (ih ts idx U (q + 1) (q + 1) (by omega) (Or.inl ⟨rfl, by omega⟩)).2.2.1
            obtain ⟨mA, hmA⟩ : ∃ mA, (andS (stA ts idx U (q + 1))).pos = mA := ⟨_, rfl⟩
            obtain ⟨mB, hmB⟩ : ∃ mB, (andS (stB ts idx U (q + 1))).pos = mB := ⟨_, rfl⟩
            have hshA : andS (stA ts idx U (q + 1)) = stA ts idx U mA := by
              rw [← hmA]
              exact shapeA (andS_preserves _)
            have hshB : andS (stB ts idx U (q + 1)) = stB ts idx U mB := by
              rw [← hmB]
              exact shapeB (andS_preserves _)
            rw [hmA, hmB] at hPRel
            have hmAge : q + 1 ≤ mA := by
              have hmono := (andS_preserves (stA ts idx U (q + 1))).2.2.2
              rw [hmA] at hmono
              simpa using hmono
            have hInner := (ih ts idx U mA mB (by omega) hPRel).2.2.2.1
            constructor
            · rw [hB.1, hA.1, hcA, hcB, hshA, hshB, hPV,
                (hInner (left ∪ andV (stA ts idx U (q + 1)))).1]
            · rw [hA.2, hB.2, hcA, hcB, hshA, hshB, hPV]
              exact (hInner (left ∪ andV (stA ts idx U (q + 1)))).2
          · intro left
            have hA := @orLoop_eq_exit (stA ts idx U q) left
              (by rw [hpA]; intro hc; exact hor (Option.some.inj hc))
            have hB := @orLoop_eq_exit (stB ts idx U q) left
              (by rw [hpB]; intro hc; exact hor (Option.some.inj hc))
            constructor
            · rw [hB.1, hA.1]
            · rw [hA.2, hB.2]
              simp only [stA_pos, stB_pos]
              exact Or.inl ⟨rfl, by omega⟩
        · have hq : q = ts.length := by omega
          exact (sim_boundary ts idx U q q (Or.inl ⟨rfl, hqle⟩) hq).2.2.2.1
      · exact (sim_boundary ts idx U q q' (Or.inr ⟨hqA, hqB⟩) hqA).2.2.2.1
    have Hor : ∀ q q', ts.length - q ≤ n + 1 → PosRel ts q q' →
        SimOr ts idx U q q' := by
      intro q q' hqn hqrel
      obtain ⟨hPV, hPRel⟩ := Hand q q' hqn hqrel
      obtain ⟨mA, hmA⟩ : ∃ mA, (andS (stA ts idx U q)).pos = mA := ⟨_, rfl⟩
      obtain ⟨mB, hmB⟩ : ∃ mB, (andS (stB ts idx U q')).pos = mB := ⟨_, rfl⟩
      have hshA : andS (stA ts idx U q) = stA ts idx U mA := by
        rw [← hmA]
        exact shapeA (andS_preserves _)
      have hshB : andS (stB ts idx U q') = stB ts idx U mB := by
        rw [← hmB]
        exact shapeB (andS_preserves _)
      rw [hmA, hmB] at hPRel
      have hge : q ≤ mA := by
        have hmono := (andS_preserves (stA ts idx U q)).2.2.2
        rw [hmA] at hmono
        simpa using hmono
      have hOL := HorLoop mA mB (by omega) hPRel (andV (stA ts idx U q))
      constructor
      · rw [(or_eq (stB ts idx U q')).1, (or_eq (stA ts idx U q)).1, hshA, hshB, hPV,
          hOL.1]
      · rw [(or_eq (stA ts idx U q)).2, (or_eq (stB ts idx U q')).2, hshA, hshB, hPV]
        exact hOL.2
    exact ⟨Hprim p p' hn hrel, HandLoop p p' hn hrel, Hand p p' hn hrel,
      HorLoop p p' hn hrel, Hor p p' hn hrel⟩

/-- Appending the missing `)` at end of input does not change the result
of the top-level parse. -/
theorem append_close_eq (ts : List String) (idx : Dict) (U : Finset Int) :
    orV (mkParser (ts ++ [")"]) idx U) = orV (mkParser ts idx U) :=
  ((sim_main ts.length ts idx U 0 0 (by omega) (Or.inl ⟨rfl, by omega⟩)).2.2.2.2).1

/-- C6: malformed queries never raise an error — appending the missing
closing parenthesis to any token stream leaves `parse`'s value unchanged
(end-of-input acts as an implicit close for an unterminated parenthesized
group), and a primary facing end-of-input, an operator token, or a stray
`)` evaluates to the empty set. -/
theorem C6_lenient_parsing :
    (∀ (ts : List String) (idx : Dict) (U : Finset Int),
      (QueryParser.parse (mkParser (ts ++ [")"]) idx U)).1 =
        (QueryParser.parse (mkParser ts idx U)).1) ∧
    (∀ st : QPState, st.peek = none → primV st = ∅) ∧
    (∀ (st : QPState) (t : String), st.peek = some t →
      t = "and" ∨ t = "or" ∨ t = ")" → primV st = ∅) :=
  ⟨fun ts idx U => append_close_eq ts idx U,
   fun _ h => (prim_eq_none h).1,
   fun _ t h ht => (prim_eq_stop h ht).1⟩

theorem C6_lenient_parsing_witness :
    ((mkParser [")"] Dict.empty ∅).peek = some ")" ∧
      primV (mkParser [")"] Dict.empty ∅) = ∅) ∧
    ((mkParser ([] : List String) Dict.empty ∅).peek = none ∧
      primV (mkParser [] Dict.empty ∅) = ∅) ∧
    (QueryParser.parse (mkParser (["(", "x"] ++ [")"]) Dict.empty ∅)).1 =
      (QueryParser.parse (mkParser ["(", "x"] Dict.empty ∅)).1 :=
  ⟨⟨rfl, C6_lenient_parsing.2.2 (mkParser [")"] Dict.empty ∅) ")" rfl
      (Or.inr (Or.inr rfl))⟩,
   ⟨rfl, C6_lenient_parsing.2.1 (mkParser [] Dict.empty ∅) rfl⟩,
   C6_lenient_parsing.1 ["(", "x"] Dict.empty ∅⟩
